import Mathlib

/-
  Verification of the extraction pipeline of the `financial_tools` repository
  (sec_filing_extractor package) against its design specification.

  The development shallowly embeds the three converters:
  * `SimpleTableParser` / `TableExtractor`   (extractors/table_extractor.py)
  * `SectionExtractor`                        (extractors/section_extractor.py)
  * `FinancialStatementExtractor`             (extractors/financial_extractor.py)

  Python values flowing through the financial extractor are modelled by the
  dynamic `JValue` type; Python exceptions are modelled with `Except`.
-/

set_option maxHeartbeats 1600000

namespace SecFiling

/-! ## Table parser (extractors/table_extractor.py, `SimpleTableParser`)

The Python class receives the HTML token stream through the `HTMLParser`
callbacks `handle_starttag` / `handle_endtag` / `handle_data`.  We embed the
callback stream as a list of `TEvent`s and the instance attributes as a
`ParserState`. -/

/-- One `HTMLParser` callback event delivered to `SimpleTableParser`. -/
inductive TEvent where
  | startTag (tag : String)
  | endTag (tag : String)
  | chunk (s : String)
deriving DecidableEq

/-- A table row: ordered cell strings. -/
abbrev Row := List String

/-- A table: ordered rows. -/
abbrev Table := List Row

/-- The mutable attributes of a `SimpleTableParser` instance. -/
structure ParserState where
  tables : List Table
  inTableDepth : Nat
  currentTable : Option Table
  currentRow : Option Row
  inCell : Bool
  cellBuffer : List String
deriving DecidableEq

/-- `SimpleTableParser.__init__`. -/
def initState : ParserState :=
  { tables := [], inTableDepth := 0, currentTable := none,
    currentRow := none, inCell := false, cellBuffer := [] }

/-- Python `str.lower()` (ASCII case mapping, which is all the tag names
exercise). -/
def pyLower (s : String) : String :=
  String.mk (s.data.map Char.toLower)

/-- Characters matched by Python's `\s` (ASCII range, which is all the
sources exercise). -/
def isPySpace (c : Char) : Bool :=
  c = ' ' || c = '\t' || c = '\n' || c = '\r' || c = '\u000b' || c = '\u000c'

/-- Whitespace-run collapsing used by `re.sub(r"\s+", " ", text)`:
the flag records whether the previous character was part of a run. -/
def collapseWsAux : Bool → List Char → List Char
  | _, [] => []
  | prevWs, c :: rest =>
    if isPySpace c then
      if prevWs then collapseWsAux true rest
      else ' ' :: collapseWsAux true rest
    else c :: collapseWsAux false rest

/-- Python `str.strip()` on the whitespace class. -/
def stripChars (cs : List Char) : List Char :=
  ((cs.dropWhile (fun c => isPySpace c)).reverse.dropWhile (fun c => isPySpace c)).reverse

/-- `SimpleTableParser._clean_text`: collapse whitespace runs to a single
space, then strip the ends. -/
def cleanText (s : String) : String :=
  String.mk (stripChars (collapseWsAux false s.data))

/-- `SimpleTableParser.handle_starttag` (the sequential attribute updates of
each branch are merged into one record update). -/
def handle_starttag (s : ParserState) (tag : String) : ParserState :=
  if pyLower tag = "table" then
    if s.inTableDepth = 0 then
      { s with currentTable := some [], inTableDepth := s.inTableDepth + 1 }
    else { s with inTableDepth := s.inTableDepth + 1 }
  else if s.inTableDepth > 0 then
    if pyLower tag = "tr" then { s with currentRow := some [] }
    else if pyLower tag = "td" ∨ pyLower tag = "th" then
      { s with inCell := true, cellBuffer := [] }
    else s
  else s

/-- `SimpleTableParser.handle_endtag` (the sequential attribute updates of
each branch are merged into one record update). -/
def handle_endtag (s : ParserState) (tag : String) : ParserState :=
  if pyLower tag = "table" then
    if s.inTableDepth > 0 then
      if s.inTableDepth - 1 = 0 then
        match s.currentTable with
        | some tbl =>
          { s with inTableDepth := s.inTableDepth - 1,
                   tables := s.tables ++ [tbl], currentTable := none }
        | none => { s with inTableDepth := s.inTableDepth - 1 }
      else { s with inTableDepth := s.inTableDepth - 1 }
    else s
  else if s.inTableDepth > 0 then
    if pyLower tag = "td" ∨ pyLower tag = "th" then
      if s.inCell then
        match s.currentRow with
        | some r =>
          { s with currentRow := some (r ++ [cleanText (String.join s.cellBuffer)]),
                   inCell := false, cellBuffer := [] }
        | none => { s with inCell := false, cellBuffer := [] }
      else { s with inCell := false, cellBuffer := [] }
    else if pyLower tag = "tr" then
      match s.currentRow, s.currentTable with
      | some r, some tbl =>
        { s with currentTable := some (tbl ++ [r]), currentRow := none }
      | _, _ => { s with currentRow := none }
    else s
  else s

/-- `SimpleTableParser.handle_data`. -/
def handle_data (s : ParserState) (d : String) : ParserState :=
  if s.inTableDepth > 0 ∧ s.inCell then
    { s with cellBuffer := s.cellBuffer ++ [d] }
  else s

/-- Dispatch one callback event. -/
def pstep (s : ParserState) : TEvent → ParserState
  | .startTag t => handle_starttag s t
  | .endTag t => handle_endtag s t
  | .chunk d => handle_data s d

/-- Feed a whole event stream (`parser.feed`). -/
def feed (s : ParserState) (evts : List TEvent) : ParserState :=
  evts.foldl pstep s

/-! ## Table filter (extractors/table_extractor.py, `TableExtractor.extract`) -/

/-- Width of a table: `max((len(row) for row in table), default=0)`
(every row produced by the parser is a list, so the `isinstance` guard is
always true). -/
def tableWidth (t : Table) : Nat :=
  (t.map List.length).foldr max 0

/-- The filtering loop of `TableExtractor.extract`: retain tables whose
width reaches `min_columns`, and break as soon as the retained count has
reached `max_tables` (checked after a possible append). -/
def filterTablesAux (minColumns maxTables : Int) : List Table → List Table → List Table
  | acc, [] => acc
  | acc, t :: rest =>
    let acc := if (tableWidth t : Int) ≥ minColumns then acc ++ [t] else acc
    if (acc.length : Int) ≥ maxTables then acc else filterTablesAux minColumns maxTables acc rest

/-- `TableExtractor.extract`'s table filtering, from `parser.tables` to
`filtered_tables`. -/
def filterTables (tables : List Table) (minColumns maxTables : Int) : List Table :=
  filterTablesAux minColumns maxTables [] tables

/-! ## Section extractor (extractors/section_extractor.py)

`_html_to_text` is a chain of `re.sub` calls; each regex is embedded as an
executable scanner over `List Char`.  Scanners that skip more than one
character per step carry a fuel argument (initialised to the input length,
which bounds the number of steps since every step consumes at least one
character). -/

/-- Case-insensitive character comparison (`re.I`). -/
def lowerEq (a b : Char) : Bool := a.toLower = b.toLower

/-- Case-insensitive literal-prefix test. -/
def isPrefixCI : List Char → List Char → Bool
  | [], _ => true
  | _ :: _, [] => false
  | p :: ps, c :: cs => lowerEq p c && isPrefixCI ps cs

/-- Scan for the first (case-insensitive) occurrence of `pat` and return the
suffix that follows it. -/
def dropAfterCI (pat : List Char) : List Char → Option (List Char)
  | [] => none
  | c :: rest =>
    if isPrefixCI pat (c :: rest) then some ((c :: rest).drop pat.length)
    else dropAfterCI pat rest

/-- `re.sub(r"OPEN[\s\S]*?CLOSE", " ", ·, flags=re.I)` for literal `OPEN` and
`CLOSE`: each leftmost match runs from an occurrence of `OPEN` to the first
following occurrence of `CLOSE` (lazy middle) and is replaced by one space. -/
def subLazyBlockAux (openPat closePat : List Char) : Nat → List Char → List Char
  | 0, cs => cs
  | _ + 1, [] => []
  | fuel + 1, c :: rest =>
    if isPrefixCI openPat (c :: rest) then
      match dropAfterCI closePat ((c :: rest).drop openPat.length) with
      | some rem => ' ' :: subLazyBlockAux openPat closePat fuel rem
      | none => c :: subLazyBlockAux openPat closePat fuel rest
    else c :: subLazyBlockAux openPat closePat fuel rest

/-- Entry point for the lazy-block substitution. -/
def subLazyBlock (openPat closePat : String) (cs : List Char) : List Char :=
  subLazyBlockAux openPat.data closePat.data cs.length cs

/-- A block-break tag at the head of the stream:
`<(br|/p|/div|/tr|/h\d)>` (case-insensitive).  Returns the suffix after the
tag. -/
def tryBlockBreak (cs : List Char) : Option (List Char) :=
  if isPrefixCI "<br>".data cs then some (cs.drop 4)
  else if isPrefixCI "</p>".data cs then some (cs.drop 4)
  else if isPrefixCI "</div>".data cs then some (cs.drop 6)
  else if isPrefixCI "</tr>".data cs then some (cs.drop 5)
  else
    match cs with
    | a :: b :: h :: d :: gt :: rest =>
      if lowerEq a '<' && lowerEq b '/' && lowerEq h 'h' && d.isDigit && gt = '>' then
        some rest
      else none
    | _ => none

/-- `re.sub(r"<(br|/p|/div|/tr|/h\d)>", "\n", ·, flags=re.I)`. -/
def subBlockBreaksAux : Nat → List Char → List Char
  | 0, cs => cs
  | _ + 1, [] => []
  | fuel + 1, c :: rest =>
    match tryBlockBreak (c :: rest) with
    | some rem => '\n' :: subBlockBreaksAux fuel rem
    | none => c :: subBlockBreaksAux fuel rest

/-- Entry point for the block-break substitution. -/
def subBlockBreaks (cs : List Char) : List Char :=
  subBlockBreaksAux cs.length cs

/-- A `<[^>]+>` match at the head of the stream: `<`, one or more non-`>`
characters, `>`.  Returns the suffix after the closing `>`. -/
def tryTagAt : List Char → Option (List Char)
  | '<' :: rest =>
    match rest.takeWhile (fun c => c ≠ '>'), rest.dropWhile (fun c => c ≠ '>') with
    | [], _ => none
    | _ :: _, '>' :: after => some after
    | _, _ => none
  | _ => none

/-- `re.sub(r"<[^>]+>", " ", ·)`. -/
def subTagsAux : Nat → List Char → List Char
  | 0, cs => cs
  | _ + 1, [] => []
  | fuel + 1, c :: rest =>
    match tryTagAt (c :: rest) with
    | some rem => ' ' :: subTagsAux fuel rem
    | none => c :: subTagsAux fuel rest

/-- Entry point for the tag-removal substitution. -/
def subTags (cs : List Char) : List Char :=
  subTagsAux cs.length cs

/-- Models the stdlib `html.unescape` on the entity subset the sources and
claims exercise (the five XML entities, `&nbsp;` and decimal character
references); text without an ampersand is returned unchanged, as in the
stdlib. -/
def tryEntity (cs : List Char) : Option (Char × List Char) :=
  if isPrefixCI "&amp;".data cs then some ('&', cs.drop 5)
  else if isPrefixCI "&lt;".data cs then some ('<', cs.drop 4)
  else if isPrefixCI "&gt;".data cs then some ('>', cs.drop 4)
  else if isPrefixCI "&quot;".data cs then some ('"', cs.drop 6)
  else if isPrefixCI "&apos;".data cs then some ('\'', cs.drop 6)
  else if isPrefixCI "&nbsp;".data cs then some (' ', cs.drop 6)
  else
    match cs with
    | '&' :: '#' :: rest =>
      match rest.takeWhile Char.isDigit, rest.dropWhile Char.isDigit with
      | [], _ => none
      | ds, ';' :: after =>
        let n := ds.foldl (fun acc d => acc * 10 + (d.toNat - 48)) 0
        if n.isValidChar then some (Char.ofNat n, after) else none
      | _, _ => none
    | _ => none

/-- `html.unescape` (modelled subset, see `tryEntity`). -/
def unescapeAux : Nat → List Char → List Char
  | 0, cs => cs
  | _ + 1, [] => []
  | fuel + 1, c :: rest =>
    match tryEntity (c :: rest) with
    | some (ch, rem) => ch :: unescapeAux fuel rem
    | none => c :: unescapeAux fuel rest

/-- Entry point for entity unescaping. -/
def unescapeEntities (cs : List Char) : List Char :=
  unescapeAux cs.length cs

/-- `re.sub(r"\r\n|\r", "\n", ·)`. -/
def normNl : List Char → List Char
  | [] => []
  | '\r' :: '\n' :: rest => '\n' :: normNl rest
  | '\r' :: rest => '\n' :: normNl rest
  | c :: rest => c :: normNl rest

/-- Horizontal whitespace (`[\t ]`). -/
def isHoriz (c : Char) : Bool := c = ' ' || c = '\t'

/-- `re.sub(r"[\t ]+", " ", ·)`: each maximal run of spaces/tabs becomes one
space. -/
def collapseHoriz : Bool → List Char → List Char
  | _, [] => []
  | inRun, c :: rest =>
    if isHoriz c then
      if inRun then collapseHoriz true rest
      else ' ' :: collapseHoriz true rest
    else c :: collapseHoriz false rest

/-- `re.sub(r"\n{2,}", "\n\n", ·)`: runs of two or more newlines become
exactly two. -/
def collapseNl2Aux : Nat → List Char → List Char
  | 0, cs => cs
  | _ + 1, [] => []
  | fuel + 1, c :: rest =>
    if c = '\n' then
      match rest with
      | '\n' :: _ => '\n' :: '\n' :: collapseNl2Aux fuel (rest.dropWhile (fun x => x = '\n'))
      | _ => '\n' :: collapseNl2Aux fuel rest
    else c :: collapseNl2Aux fuel rest

/-- Entry point for the blank-run collapsing. -/
def collapseNl2 (cs : List Char) : List Char :=
  collapseNl2Aux cs.length cs

/-- `re.sub(r"\n{3,}", "\n\n", ·)`: runs of three or more newlines become
exactly two (runs of one or two are kept). -/
def collapseNl3Aux : Nat → List Char → List Char
  | 0, cs => cs
  | _ + 1, [] => []
  | fuel + 1, c :: rest =>
    if c = '\n' then
      match rest with
      | '\n' :: '\n' :: _ => '\n' :: '\n' :: collapseNl3Aux fuel (rest.dropWhile (fun x => x = '\n'))
      | _ => c :: collapseNl3Aux fuel rest
    else c :: collapseNl3Aux fuel rest

/-- Entry point for the three-newline collapsing. -/
def collapseNl3 (cs : List Char) : List Char :=
  collapseNl3Aux cs.length cs

/-- `SectionExtractor._html_to_text`.  The source assigns both of the first
two `re.sub` results to `text`, but the second call reads `html` again, so
the script-stripping result is discarded; the embedding preserves that
data flow exactly (the first binding is dead). -/
def htmlToText (html : String) : String :=
  let _textScriptsStripped := subLazyBlock "<script" "</script>" html.data
  let text := subLazyBlock "<style" "</style>" html.data
  let text := subBlockBreaks text
  let text := subTags text
  let text := unescapeEntities text
  let text := normNl text
  let text := text.map (fun c => if c = '\u00A0' then ' ' else c)
  let text := collapseHoriz false text
  let text := collapseNl2 text
  String.mk text

/-! ### Header detection (`SectionExtractor._find_sections`)

The pattern is `(?im)^\s*item\s+(\d+[a-z]?)\.?\s*(.*)$`.  At a line start
the match attempt is deterministic: every greedy sub-pattern is followed by
a pattern whose first character class is disjoint from it, and the final
`\s*(.*)$` always succeeds, so maximal munch never backtracks. -/

/-- Attempt the item-header pattern at the current position (which must be a
line start).  Returns the upper-cased item id (`group(1).upper()`), the raw
`group(2)` capture, and the suffix after the match end. -/
def tryItemAt (cs : List Char) : Option (String × String × List Char) :=
  let s1 := cs.dropWhile (fun c => isPySpace c)
  if isPrefixCI "item".data s1 then
    let s2 := s1.drop 4
    if (s2.takeWhile (fun c => isPySpace c)).isEmpty then none
    else
      let s3 := s2.dropWhile (fun c => isPySpace c)
      let digits := s3.takeWhile Char.isDigit
      if digits.isEmpty then none
      else
        let s4 := s3.dropWhile Char.isDigit
        let letterAnd : List Char × List Char :=
          match s4 with
          | c :: rest => if c.isAlpha then ([c], rest) else ([], s4)
          | [] => ([], [])
        let s5 := letterAnd.2
        let s6 := match s5 with
          | '.' :: rest => rest
          | _ => s5
        let s7 := s6.dropWhile (fun c => isPySpace c)
        let title := s7.takeWhile (fun c => c ≠ '\n')
        let s8 := s7.dropWhile (fun c => c ≠ '\n')
        some (String.mk ((digits ++ letterAnd.1).map Char.toUpper), String.mk title, s8)
  else none

/-- Find the next match at or after the current position.
`lineStart` records whether the current position starts a line (`^` under
`re.M`).  Returns (start offset, end offset, id, raw title, suffix after the
match). -/
def scanNext : Bool → List Char → Option (Nat × Nat × String × String × List Char)
  | _, [] => none
  | lineStart, c :: rest =>
    match (if lineStart then tryItemAt (c :: rest) else none) with
    | some (id, t, rem) => some (0, (c :: rest).length - rem.length, id, t, rem)
    | none =>
      match scanNext (c = '\n') rest with
      | some (s, e, id, t, rem) => some (s + 1, e + 1, id, t, rem)
      | none => none

/-- `pattern.finditer(text)`: all non-overlapping leftmost matches, with
absolute (start, end) offsets.  After a match the scan resumes immediately
after its end, which is never itself a line start mid-text. -/
def allMatchesAux : Nat → Nat → Bool → List Char → List (Nat × Nat × String × String)
  | 0, _, _, _ => []
  | fuel + 1, base, lineStart, cs =>
    match scanNext lineStart cs with
    | none => []
    | some (s, e, id, t, rem) => (base + s, base + e, id, t) :: allMatchesAux fuel (base + e) false rem

/-- All matches of the item-header pattern. -/
def allMatches (cs : List Char) : List (Nat × Nat × String × String) :=
  allMatchesAux (cs.length + 1) 0 true cs

/-- Python slice `text[a:b]`. -/
def sliceChars (cs : List Char) (a b : Nat) : List Char :=
  (cs.take b).drop a

/-- Content clean-up: `content.strip()` then `re.sub(r"\n{3,}", "\n\n", ·)`. -/
def cleanContent (cs : List Char) : String :=
  String.mk (collapseNl3 (stripChars cs))

/-- The section-assembly loop of `_find_sections`: content runs from the end
of the current match to the start of the next one (or the end of the text).
The title is `group(2).strip()`. -/
def buildSections (text : List Char) : List (Nat × Nat × String × String) → List (String × String × String)
  | [] => []
  | [(_, e, id, t)] => [(id, String.mk (stripChars t.data), cleanContent (sliceChars text e text.length))]
  | (_, e, id, t) :: m2 :: rest =>
    (id, String.mk (stripChars t.data), cleanContent (sliceChars text e m2.1)) ::
      buildSections text (m2 :: rest)

/-- `SectionExtractor._find_sections` (returns `[]` when there is no match). -/
def findSections (text : String) : List (String × String × String) :=
  buildSections text.data (allMatches text.data)

/-! ### `SectionExtractor.extract` -/

/-- The filesystem facts `BaseExtractor.validate_source` consults. -/
structure SourceMeta where
  present : Bool
  isFile : Bool
  size : Nat
deriving DecidableEq

/-- `BaseExtractor.validate_source`: raises `ExtractionError` for a missing,
non-file, or empty source. -/
def validate_source (m : SourceMeta) : Except String Unit :=
  if ¬ m.present then .error "Source file not found"
  else if ¬ m.isFile then .error "Source is not a file"
  else if m.size = 0 then .error "Source file is empty"
  else .ok ()

/-- The result dictionary of `SectionExtractor.extract` (file paths are
abstracted to the names the code builds). -/
structure SectionResult where
  sections : List (String × String)
  indexFile : Option String
  sectionCount : Nat
deriving DecidableEq

/-- `f"Item_{item_id}.md"`. -/
def itemFilename (id : String) : String := "Item_" ++ id ++ ".md"

/-- `SectionExtractor.extract`, from source validation to the result
dictionary (the writes of the individual section files are not observable in
the result beyond the recorded names). -/
def sectionExtract (m : SourceMeta) (content : String) : Except String SectionResult :=
  match validate_source m with
  | .error e => .error e
  | .ok _ =>
    let text := htmlToText content
    let secs := findSections text
    if secs.isEmpty then
      .ok { sections := [], indexFile := none, sectionCount := 0 }
    else
      .ok { sections := secs.map (fun s => (s.1, itemFilename s.1)),
            indexFile := some "sections_index.md",
            sectionCount := secs.length }

/-! ## Financial statement extractor (extractors/financial_extractor.py)

The company-facts JSON is a dynamically typed Python value; we embed it as
`JValue`.  Python exceptions raised by attribute access, indexing, iteration
or comparisons on unexpected shapes are modelled by `Except PyErr`. -/

/-- A Python/JSON value as the extractor sees it. -/
inductive JValue where
  | null
  | boolean (b : Bool)
  | num (n : Int)
  | str (s : String)
  | arr (xs : List JValue)
  | obj (fields : List (String × JValue))

mutual

/-- Structural equality of values (Python `==` on JSON data). -/
def JValue.beq : JValue → JValue → Bool
  | .null, .null => true
  | .boolean a, .boolean b => a == b
  | .num a, .num b => a == b
  | .str a, .str b => a == b
  | .arr xs, .arr ys => beqL xs ys
  | .obj fs, .obj gs => beqF fs gs
  | _, _ => false

/-- Structural equality on value lists. -/
def beqL : List JValue → List JValue → Bool
  | [], [] => true
  | x :: xs, y :: ys => JValue.beq x y && beqL xs ys
  | _, _ => false

/-- Structural equality on field lists. -/
def beqF : List (String × JValue) → List (String × JValue) → Bool
  | [], [] => true
  | (k, v) :: fs, (k', v') :: gs => k == k' && JValue.beq v v' && beqF fs gs
  | _, _ => false

end

mutual

/-- `JValue.beq` decides equality. -/
theorem JValue.beq_iff : ∀ a b : JValue, JValue.beq a b = true ↔ a = b
  | .null, b => by cases b <;> simp [JValue.beq]
  | .boolean x, b => by cases b <;> simp [JValue.beq]
  | .num x, b => by cases b <;> simp [JValue.beq]
  | .str x, b => by cases b <;> simp [JValue.beq]
  | .arr xs, b => by cases b <;> simp [JValue.beq, beqL_iff xs]
  | .obj fs, b => by cases b <;> simp [JValue.beq, beqF_iff fs]

/-- `beqL` decides equality. -/
theorem beqL_iff : ∀ a b : List JValue, beqL a b = true ↔ a = b
  | [], b => by cases b <;> simp [beqL]
  | x :: xs, b => by cases b <;> simp [beqL, JValue.beq_iff x, beqL_iff xs]

/-- `beqF` decides equality. -/
theorem beqF_iff : ∀ a b : List (String × JValue), beqF a b = true ↔ a = b
  | [], b => by cases b <;> simp [beqF]
  | (k, v) :: fs, b => by
    cases b with
    | nil => simp [beqF]
    | cons p gs =>
      obtain ⟨k', v'⟩ := p
      simp [beqF, JValue.beq_iff v, beqF_iff fs, and_assoc]

end

instance : DecidableEq JValue := fun a b => decidable_of_iff _ (JValue.beq_iff a b)

deriving instance DecidableEq for Except

/-- Python exceptions the embedded code can raise. -/
inductive PyErr where
  | attributeError
  | typeError
  | keyError
deriving DecidableEq

/-- Message used when `extract` wraps an exception in `ExtractionError`. -/
def PyErr.msg : PyErr → String
  | .attributeError => "AttributeError"
  | .typeError => "TypeError"
  | .keyError => "KeyError"

/-- Python truthiness (`bool(v)`). -/
def JValue.truthy : JValue → Bool
  | .null => false
  | .boolean b => b
  | .num n => n ≠ 0
  | .str s => ¬ s.isEmpty
  | .arr xs => ¬ xs.isEmpty
  | .obj fs => ¬ fs.isEmpty

/-- Is this value a string? -/
def JValue.isStr : JValue → Bool
  | .str _ => true
  | _ => false

/-- The underlying string of a string value (and `""` elsewhere). -/
def strOf : JValue → String
  | .str s => s
  | _ => ""

/-- Dictionary lookup on an object's field list (keys are unique). -/
def jlookup : List (String × JValue) → String → Option JValue
  | [], _ => none
  | (k, v) :: rest, key => if k = key then some v else jlookup rest key

/-- `d.get(key)` (returns Python `None` when absent); raises
`AttributeError` when the receiver is not a dict. -/
def pyGet (v : JValue) (key : String) : Except PyErr JValue :=
  match v with
  | .obj fs => .ok ((jlookup fs key).getD .null)
  | _ => .error .attributeError

/-- `d.get(key, default)`; raises `AttributeError` when the receiver is not
a dict. -/
def pyGetD (v : JValue) (key : String) (dflt : JValue) : Except PyErr JValue :=
  match v with
  | .obj fs => .ok ((jlookup fs key).getD dflt)
  | _ => .error .attributeError

/-- Python `a or b` (first truthy operand, else the second). -/
def jor (a b : JValue) : JValue := if a.truthy then a else b

/-- Python `>` between two values: defined for string/string (lexicographic
by code point, i.e. on the character lists) and number/number, `TypeError`
otherwise. -/
def pyGT (a b : JValue) : Except PyErr Bool :=
  match a, b with
  | .str x, .str y => .ok (decide (y.data < x.data))
  | .num x, .num y => .ok (decide (y < x))
  | _, _ => .error .typeError

/-- The `series` dict built by `_parse_unit_series`: date key ↦
`(value, filed)`, in insertion order with unique keys. -/
abbrev Series := List (JValue × JValue × JValue)

/-- `series.get(date)`. -/
def seriesGet (s : Series) (k : JValue) : Option (JValue × JValue) :=
  match s with
  | [] => none
  | (k', v) :: rest => if k' = k then some v else seriesGet rest k

/-- `series[date] = v`: replace the entry in place, else append. -/
def seriesSet (s : Series) (k : JValue) (v : JValue × JValue) : Series :=
  match s with
  | [] => [(k, v)]
  | (k', v') :: rest => if k' = k then (k, v) :: rest else (k', v') :: seriesSet rest k v

/-- The date key of an observation:
`obs.get("end") or obs.get("instant") or obs.get("filed")`, usable only when
truthy. -/
def dateKeyOf (fs : List (String × JValue)) : Option JValue :=
  let date := jor (jor ((jlookup fs "end").getD .null) ((jlookup fs "instant").getD .null))
    ((jlookup fs "filed").getD .null)
  if date.truthy then some date else none

/-- `obs.get("val")`. -/
def valOf (fs : List (String × JValue)) : JValue :=
  (jlookup fs "val").getD .null

/-- `obs.get("filed", "")`. -/
def filedOf (fs : List (String × JValue)) : JValue :=
  (jlookup fs "filed").getD (.str "")

/-- One iteration of the loop in `_parse_unit_series`.  A non-dict
observation raises `AttributeError` at `obs.get("end")`. -/
def parseStep (series : Series) (obs : JValue) : Except PyErr Series :=
  match obs with
  | .obj fs =>
    match dateKeyOf fs with
    | none => .ok series
    | some date =>
      let value := valOf fs
      let filed := filedOf fs
      match seriesGet series date with
      | none => .ok (seriesSet series date (value, filed))
      | some existing =>
        if filed.truthy then do
          let b ← pyGT filed existing.2
          if b then .ok (seriesSet series date (value, filed)) else .ok series
        else .ok series
  | _ => .error .attributeError

/-- The `for obs in unit_data` loop. -/
def parseLoop : Series → List JValue → Except PyErr Series
  | s, [] => .ok s
  | s, x :: xs =>
    match parseStep s x with
    | .ok s' => parseLoop s' xs
    | .error e => .error e

/-- `for ... in v`: what Python iteration yields (`TypeError` on
non-iterables). -/
def iterElems : JValue → Except PyErr (List JValue)
  | .arr xs => .ok xs
  | .obj fs => .ok (fs.map (fun p => .str p.1))
  | .str s => .ok (s.data.map (fun c => .str (String.mk [c])))
  | _ => .error .typeError

/-- `FinancialStatementExtractor._parse_unit_series`. -/
def parseUnitSeries (unitData : JValue) : Except PyErr Series := do
  let xs ← iterElems unitData
  parseLoop [] xs

/-- `Config.preferred_units`. -/
def preferredUnits : List String := ["USD", "shares"]

/-- Substring occurrence test (Python `needle in hay` on strings). -/
def hasSubstr (hay needle : List Char) : Bool :=
  match hay with
  | [] => needle.isEmpty
  | _ :: rest => needle.isPrefixOf hay || hasSubstr rest needle

/-- Python `key in container` (`TypeError` for non-containers; substring
test on strings). -/
def jContains (container : JValue) (key : String) : Except PyErr Bool :=
  match container with
  | .obj fs => .ok (jlookup fs key).isSome
  | .arr xs => .ok (xs.contains (.str key))
  | .str s => .ok (hasSubstr s.data key.data)
  | _ => .error .typeError

/-- `units[unit]` (`KeyError` when absent, `TypeError` on non-dicts). -/
def jIndex (v : JValue) (key : String) : Except PyErr JValue :=
  match v with
  | .obj fs =>
    match jlookup fs key with
    | some x => .ok x
    | none => .error .keyError
  | _ => .error .typeError

/-- `v.values()` (`AttributeError` on non-dicts). -/
def jvalues : JValue → Except PyErr (List JValue)
  | .obj fs => .ok (fs.map Prod.snd)
  | _ => .error .attributeError

/-- The preferred-unit loop of `_extract_series`: the first preferred unit
contained in `units`, if any. -/
def firstPreferred : List String → JValue → Except PyErr (Option String)
  | [], _ => .ok none
  | u :: rest, units => do
    let b ← jContains units u
    if b then .ok (some u) else firstPreferred rest units

/-- The fallback loop of `_extract_series`: the first unit whose parsed
series is truthy (non-empty); `{}` when none is. -/
def firstNonEmpty : List JValue → Except PyErr Series
  | [] => .ok []
  | v :: rest => do
    let s ← parseUnitSeries v
    if s.isEmpty then firstNonEmpty rest else .ok s

/-- `FinancialStatementExtractor._extract_series`. -/
def extractSeries (factObj : JValue) : Except PyErr Series := do
  let units ← pyGetD factObj "units" (.obj [])
  match ← firstPreferred preferredUnits units with
  | some u => parseUnitSeries (← jIndex units u)
  | none => do
    let vs ← jvalues units
    firstNonEmpty vs

/-! ### `_generate_statement` -/

/-- A generated CSV statement: the header row and the data rows (each data
row is the date cell followed by one cell per concept). -/
structure Statement where
  header : List String
  rows : List (List JValue)
deriving DecidableEq

/-- Add the keys of a freshly resolved series to the `all_dates` set
(the keys of a series are pairwise distinct, so filtering out the dates
already collected keeps one occurrence of each). -/
def datesUnion (acc : List JValue) (ks : List JValue) : List JValue :=
  acc ++ ks.filter (fun k => ¬ acc.contains k)

/-- The per-concept loop of `_generate_statement`, accumulating
`concept_series` and `all_dates`. -/
def collectLoop (gfs : List (String × JValue)) :
    List (String × Series) × List JValue → List String →
    Except PyErr (List (String × Series) × List JValue)
  | acc, [] => .ok acc
  | acc, c :: cs =>
    match jlookup gfs c with
    | none => collectLoop gfs acc cs
    | some factObj =>
      if ¬ factObj.truthy then collectLoop gfs acc cs
      else
        match extractSeries factObj with
        | .error e => .error e
        | .ok series =>
          if series.isEmpty then collectLoop gfs acc cs
          else collectLoop gfs (acc.1 ++ [(c, series)], datesUnion acc.2 (series.map Prod.fst)) cs

/-- `sorted(all_dates)`: modelled for the homogeneous cases the date keys
take (all strings, or all numbers); lists of at most one element need no
comparison; heterogeneous non-trivial lists raise `TypeError` as in
CPython. -/
def pySorted (ds : List JValue) : Except PyErr (List JValue) :=
  if ds.all JValue.isStr then
    .ok (ds.insertionSort (fun a b => ¬ (strOf b).data < (strOf a).data))
  else if ds.all (fun d => match d with | .num _ => true | _ => false) then
    .ok (ds.insertionSort (fun a b =>
      (match a with | .num n => n | _ => 0) ≤ (match b with | .num n => n | _ => 0)))
  else if ds.length ≤ 1 then .ok ds
  else .error .typeError

/-- Association lookup on the accumulated `concept_series`. -/
def csLookup : List (String × Series) → String → Option Series
  | [], _ => none
  | (k, v) :: rest, key => if k = key then some v else csLookup rest key

/-- The value cell for `(date, concept)`:
`concept_series.get(concept, {})` then `series.get(date, ("", ""))[0]`. -/
def cellFor (conceptSeries : List (String × Series)) (c : String) (d : JValue) : JValue :=
  match csLookup conceptSeries c with
  | none => .str ""
  | some s =>
    match seriesGet s d with
    | none => .str ""
    | some v => v.1

/-- `FinancialStatementExtractor._generate_statement` (the CSV writing is
represented by the returned `Statement`; `None` is returned when no concept
had any data). -/
def generateStatement (usGaap : JValue) (concepts : List String) :
    Except PyErr (Option Statement) := do
  match usGaap with
  | .obj gfs => do
    let acc ← collectLoop gfs ([], []) concepts
    if acc.2.isEmpty then .ok none
    else do
      let sortedDates ← pySorted acc.2
      let rows := sortedDates.map (fun d => d :: concepts.map (fun c => cellFor acc.1 c d))
      .ok (some { header := "Date" :: concepts, rows := rows })
  | _ => .error .attributeError

/-! ### `extract` (the statement batch) -/

/-- `Config.income_statement_concepts`. -/
def incomeStatementConcepts : List String :=
  ["Revenues", "SalesRevenueNet", "CostOfRevenue", "GrossProfit",
   "OperatingExpenses", "ResearchAndDevelopmentExpense",
   "SellingGeneralAndAdministrativeExpense", "OperatingIncomeLoss",
   "InterestExpense", "IncomeTaxExpenseBenefit", "NetIncomeLoss"]

/-- `Config.balance_sheet_concepts`. -/
def balanceSheetConcepts : List String :=
  ["Assets", "AssetsCurrent", "Liabilities", "LiabilitiesCurrent",
   "StockholdersEquity",
   "StockholdersEquityIncludingPortionAttributableToNoncontrollingInterest",
   "RetainedEarningsAccumulatedDeficit",
   "CashAndCashEquivalentsAtCarryingValue", "InventoryNet",
   "CommonStockSharesOutstanding"]

/-- `Config.cash_flow_concepts`. -/
def cashFlowConcepts : List String :=
  ["NetCashProvidedByUsedInOperatingActivities",
   "NetCashProvidedByUsedInInvestingActivities",
   "NetCashProvidedByUsedInFinancingActivities",
   "PaymentsToAcquirePropertyPlantAndEquipment",
   "DepreciationDepletionAndAmortization",
   "PaymentsForRepurchaseOfCommonStock",
   "ProceedsFromIssuanceOfLongTermDebt", "RepaymentsOfLongTermDebt",
   "PaymentsOfDividends"]

/-- `FinancialStatementExtractor.extract` without the I/O: US-GAAP
selection, the `ExtractionError` for a graph with no facts, and the three
statement generations.  Returns the generated statements keyed by code; any
exception inside is wrapped into the `ExtractionError` raised by the
`except` block, aborting the whole batch. -/
def fe_extract_inner (facts : JValue) : Except PyErr (Option (List (String × Statement))) := do
  let f1 ← pyGetD facts "facts" (.obj [])
  let g ← pyGetD f1 "us-gaap" (.obj [])
  let usGaap ← if ¬ g.truthy then pyGetD facts "facts" (.obj []) else pure g
  if ¬ usGaap.truthy then pure none
  else do
    let isStmt ← generateStatement usGaap incomeStatementConcepts
    let bsStmt ← generateStatement usGaap balanceSheetConcepts
    let cfStmt ← generateStatement usGaap cashFlowConcepts
    pure (some (([("IS", isStmt), ("BS", bsStmt), ("CF", cfStmt)]).filterMap
      (fun p => p.2.map (fun st => (p.1, st)))))

/-- The observable behaviour of `FinancialStatementExtractor.extract`:
either the generated statements or the `ExtractionError` it raises. -/
def fe_extract (facts : JValue) : Except String (List (String × Statement)) :=
  match fe_extract_inner facts with
  | .ok (some l) => .ok l
  | .ok none =>
    .error "Failed to extract financial statements: No US-GAAP facts found in company facts"
  | .error e => .error ("Failed to extract financial statements: " ++ e.msg)

/-! ## Derived notions used by the verification statements -/

/-- A well-formed observation record as the data model describes it: a dict
whose filed-date (defaulted to `""`) is a string. -/
def wfObs : JValue → Bool
  | .obj fs => (filedOf fs).isStr
  | _ => false

/-- The `series` dict represents the observation list `ys`: every retained
entry is the `(value, filed)` of an observation whose date key is that entry's
key and whose filed-date is lexicographically greatest among all of `ys`
sharing the key, and every usable date key of `ys` is present. -/
def SeriesRep (ys : List JValue) (s : Series) : Prop :=
  (∀ d v f, seriesGet s d = some (v, f) →
    ∃ fs, JValue.obj fs ∈ ys ∧ dateKeyOf fs = some d ∧ valOf fs = v ∧ filedOf fs = f ∧
      ∀ gs, JValue.obj gs ∈ ys → dateKeyOf gs = some d → strOf (filedOf gs) ≤ strOf f)
  ∧ (∀ fs, JValue.obj fs ∈ ys → ∀ d, dateKeyOf fs = some d → (seriesGet s d).isSome = true)

/-- The series `_parse_unit_series` yields on unit data, with `{}` for an
exception (used only to phrase unit-selection statements). -/
def okSeries (v : JValue) : Series :=
  match parseUnitSeries v with
  | .ok s => s
  | .error _ => []

/-- The series `_generate_statement` ends up using for a concept: empty when
the concept is absent or falsy, otherwise the resolved series of its fact
object (`{}` again standing for the exception case, which aborts the
statement instead). -/
def resolvedSeries (gfs : List (String × JValue)) (c : String) : Series :=
  match jlookup gfs c with
  | none => []
  | some f =>
    if ¬ f.truthy then []
    else
      match extractSeries f with
      | .ok s => s
      | .error _ => []

/-- Exception-free restatement of `collectLoop` (they agree whenever
`collectLoop` succeeds). -/
def pureCollect (gfs : List (String × JValue)) :
    List (String × Series) × List JValue → List String →
    List (String × Series) × List JValue
  | acc, [] => acc
  | acc, c :: cs =>
    let s := resolvedSeries gfs c
    if s.isEmpty then pureCollect gfs acc cs
    else pureCollect gfs (acc.1 ++ [(c, s)], datesUnion acc.2 (s.map Prod.fst)) cs

/-! ## Concrete inputs used by the individual verification results -/

/-- Event stream of
`<table><tr><td>X<table><tr><td>Y</td></tr></table></td></tr></table>`:
one table whose single cell contains a nested table. -/
def nestedEvents : List TEvent :=
  [.startTag "table", .startTag "tr", .startTag "td", .chunk "X",
   .startTag "table", .startTag "tr", .startTag "td", .chunk "Y",
   .endTag "td", .endTag "tr", .endTag "table",
   .endTag "td", .endTag "tr", .endTag "table"]

/-- The same markup with the nested table emptied:
`<table><tr><td>X<table></table></td></tr></table>`. -/
def nestedEmptyEvents : List TEvent :=
  [.startTag "table", .startTag "tr", .startTag "td", .chunk "X",
   .startTag "table", .endTag "table",
   .endTag "td", .endTag "tr", .endTag "table"]

/-- A two-column single-row table. -/
def wideTable : Table := [["a", "b"]]

/-- A well-formed observation record `{end: d, val: v, filed: f}`. -/
def mkObs (d : String) (v : Int) (f : String) : JValue :=
  .obj [("end", .str d), ("val", .num v), ("filed", .str f)]

/-- Company facts whose `Assets` unit data contains an observation that is
not a record (`5` instead of a dict), next to a healthy `Revenues`. -/
def gMalformed : JValue :=
  .obj [("facts", .obj [("us-gaap", .obj
    [("Revenues", .obj [("units", .obj [("USD", .arr [mkObs "2023-12-31" 10 "2024-02-01"])])]),
     ("Assets", .obj [("units", .obj [("USD", .arr [.num 5])])])])])]

/-- Company facts with only `Liabilities` among the balance-sheet concepts
(`Assets` is absent from the graph). -/
def gAbsent : JValue :=
  .obj [("facts", .obj [("us-gaap", .obj
    [("Liabilities", .obj [("units", .obj [("USD", .arr [mkObs "2023-12-31" 50 "2024-02-01"])])])])])]

/-- The spec's conflict-resolution example: same reporting date, filed-dates
"2023-01-10" and "2023-02-15", values 100 and 120. -/
def conflictObsList : List JValue :=
  [mkObs "2023-03-31" 100 "2023-01-10", mkObs "2023-03-31" 120 "2023-02-15"]

/-- Two observations with the same date key and the same filed-date but
different values. -/
def equalFiledObsList : List JValue :=
  [mkObs "2023-03-31" 100 "2023-02-15", mkObs "2023-03-31" 777 "2023-02-15"]

/-- A unit map carrying one USD observation and three `shares`
observations. -/
def unitMapUsdShares : List (String × JValue) :=
  [("USD", .arr [mkObs "2023-12-31" 500 "2024-02-01"]),
   ("shares", .arr [mkObs "2021-12-31" 1 "2022-02-01", mkObs "2022-12-31" 2 "2023-02-01",
                    mkObs "2023-12-31" 3 "2024-02-01"])]

/-- A fact present in both USD and shares units. -/
def factUsdShares : List (String × JValue) := [("units", .obj unitMapUsdShares)]

/-- The same facts as `gMalformed` but with the malformed `Assets` concept
removed. -/
def gHealthy : JValue :=
  .obj [("facts", .obj [("us-gaap", .obj
    [("Revenues", .obj [("units", .obj [("USD", .arr [mkObs "2023-12-31" 10 "2024-02-01"])])])])])]

/-- A small US-GAAP graph for the statement-shape result: `Assets` with two
dates, `Liabilities` with one of them. -/
def gfsShape : List (String × JValue) :=
  [("Assets", .obj [("units", .obj [("USD",
      .arr [mkObs "2023-12-31" 500 "2024-02-01", mkObs "2022-12-31" 400 "2023-02-01"])])]),
   ("Liabilities", .obj [("units", .obj [("USD",
      .arr [mkObs "2023-12-31" 200 "2024-02-01"])])])]

/-! ## Verification results — table parser -/

/-- `handle_starttag` never touches the output table list. -/
theorem tables_handle_starttag (s : ParserState) (tag : String) :
    (handle_starttag s tag).tables = s.tables := by
  unfold handle_starttag
  split_ifs <;> rfl

/-- `handle_data` never touches the output table list. -/
theorem tables_handle_data (s : ParserState) (d : String) :
    (handle_data s d).tables = s.tables := by
  unfold handle_data
  split_ifs <;> rfl

/-- `handle_endtag` leaves the output table list unchanged except in the
depth-1 table-close case with an accumulating table. -/
theorem tables_handle_endtag (s : ParserState) (tag : String)
    (h : (handle_endtag s tag).tables ≠ s.tables) :
    pyLower tag = "table" ∧ s.inTableDepth = 1 ∧
      ∃ t, s.currentTable = some t ∧ (handle_endtag s tag).tables = s.tables ++ [t] := by
  unfold handle_endtag at h ⊢
  by_cases h1 : pyLower tag = "table"
  · rw [if_pos h1] at h ⊢
    by_cases h2 : s.inTableDepth > 0
    · rw [if_pos h2] at h ⊢
      by_cases h3 : s.inTableDepth - 1 = 0
      · rw [if_pos h3] at h ⊢
        match h4 : s.currentTable with
        | some tbl => exact ⟨h1, by omega, tbl, rfl, rfl⟩
        | none => rw [h4] at h; exact absurd rfl h
      · rw [if_neg h3] at h; exact absurd rfl h
    · rw [if_neg h2] at h; exact absurd rfl h
  · rw [if_neg h1] at h
    by_cases h2 : s.inTableDepth > 0
    · rw [if_pos h2] at h
      by_cases h3 : pyLower tag = "td" ∨ pyLower tag = "th"
      · rw [if_pos h3] at h
        by_cases h4 : s.inCell
        · rw [if_pos h4] at h
          match h5 : s.currentRow with
          | some r => rw [h5] at h; exact absurd rfl h
          | none => rw [h5] at h; exact absurd rfl h
        · rw [if_neg h4] at h; exact absurd rfl h
      · rw [if_neg h3] at h
        by_cases h5 : pyLower tag = "tr"
        · rw [if_pos h5] at h
          rcases h6 : s.currentRow with _ | r <;> rcases h7 : s.currentTable with _ | tbl <;>
            rw [h6, h7] at h <;> exact absurd rfl h
        · rw [if_neg h5] at h; exact absurd rfl h
    · rw [if_neg h2] at h; exact absurd rfl h

/-- C5: a `Table` is appended to the output sequence only by a table-close
event at depth 1 (the counter returning to 0) with an accumulating table
present, and the nested-table construct therefore yields exactly one `Table`
in the output. -/
theorem table_flushed_only_when_depth_returns_to_zero :
    (∀ (s : ParserState) (e : TEvent), (pstep s e).tables ≠ s.tables →
      ∃ (tag : String) (t : Table), e = .endTag tag ∧ pyLower tag = "table" ∧
        s.inTableDepth = 1 ∧ s.currentTable = some t ∧
        (pstep s e).tables = s.tables ++ [t]) ∧
    (feed initState nestedEvents).tables.length = 1 := by
  constructor
  · intro s e h
    match e with
    | .startTag tag => exact absurd (tables_handle_starttag s tag) h
    | .chunk d => exact absurd (tables_handle_data s d) h
    | .endTag tag =>
      obtain ⟨h1, h2, t, h3, h4⟩ := tables_handle_endtag s tag h
      exact ⟨tag, t, rfl, h1, h2, h3, h4⟩
  · decide

/-- C5 witness: the flush condition at a concrete closing event. -/
theorem table_flushed_only_when_depth_returns_to_zero_witness :
    ∃ (tag : String) (t : Table), (TEvent.endTag "table") = .endTag tag ∧
      pyLower tag = "table" ∧
      (ParserState.mk [] 1 (some [["A"]]) none false []).inTableDepth = 1 ∧
      (ParserState.mk [] 1 (some [["A"]]) none false []).currentTable = some t ∧
      (pstep (ParserState.mk [] 1 (some [["A"]]) none false []) (.endTag "table")).tables =
        (ParserState.mk [] 1 (some [["A"]]) none false []).tables ++ [t] :=
  table_flushed_only_when_depth_returns_to_zero.1
    (ParserState.mk [] 1 (some [["A"]]) none false []) (.endTag "table") (by decide)

/-- C2 counterexample: tags inside a nested table are *not* ignored.  In
`<table><tr><td>X<table><tr><td>Y</td></tr></table></td></tr></table>` the
row and cell events at depth 2 produce the row `["Y"]` of the output table
(the nested cell-open even clobbers the buffered outer text `X`); emptying
the nested table changes the output to `[["X"]]`.  Under the claim the two
outputs would coincide. -/
theorem nested_rows_merge_into_outer_table :
    (feed initState nestedEvents).tables = [[["Y"]]] ∧
    (feed initState nestedEmptyEvents).tables = [[["X"]]] := by
  decide

/-- C2 amended: a nested table-open tag only increments the depth counter
(it never starts a second `Table`), but row, cell and text events at depth
≥ 2 are handled by the ordinary in-table handlers and are merged into the
outer accumulating `Table`, as the concrete nested construct shows. -/
theorem nested_table_open_only_increments_depth :
    (∀ (s : ParserState) (tag : String), pyLower tag = "table" → 1 ≤ s.inTableDepth →
      handle_starttag s tag = { s with inTableDepth := s.inTableDepth + 1 }) ∧
    (feed initState nestedEvents).tables = [[["Y"]]] := by
  constructor
  · intro s tag h1 h2
    have h0 : s.inTableDepth ≠ 0 := by omega
    simp [handle_starttag, h1, h0]
  · decide

/-- C2 amended, witness: a concrete nested table-open (upper-case tag) at
depth 1. -/
theorem nested_table_open_only_increments_depth_witness :
    handle_starttag (ParserState.mk [] 1 (some []) none false []) "TABLE" =
      { ParserState.mk [] 1 (some []) none false [] with inTableDepth := 1 + 1 } :=
  nested_table_open_only_increments_depth.1
    (ParserState.mk [] 1 (some []) none false []) "TABLE" (by decide) (by decide)

/-! ## Verification results — table filter -/

/-- The filtering loop with remaining capacity: as long as the retained
count is below `max_tables`, the loop keeps the first
`max_tables - len(acc)` further qualifying tables. -/
theorem filterTablesAux_characterization (minC m : Int) (ts : List Table) :
    ∀ acc : List Table, (acc.length : Int) < m →
      filterTablesAux minC m acc ts =
        acc ++ (ts.filter (fun t => decide ((tableWidth t : Int) ≥ minC))).take (m - acc.length).toNat := by
  induction ts with
  | nil => intro acc _; simp [filterTablesAux]
  | cons t ts ih =>
    intro acc hacc
    unfold filterTablesAux
    by_cases hp : (tableWidth t : Int) ≥ minC
    · simp only [if_pos hp, List.filter_cons, decide_eq_true hp]
      by_cases hstop : ((acc ++ [t]).length : Int) ≥ m
      · have hm : m = acc.length + 1 := by
          simp only [List.length_append, List.length_cons, List.length_nil] at hstop
          omega
        rw [if_pos (by simpa using hstop)]
        have : (m - (acc.length : Int)).toNat = 1 := by omega
        rw [this]
        simp
      · rw [if_neg (by simpa using hstop)]
        rw [ih (acc ++ [t]) (by simp at hstop ⊢; omega)]
        have h1 : (m - (acc.length : Int)).toNat = ((m - ((acc ++ [t]).length : Int)).toNat) + 1 := by
          simp only [List.length_append, List.length_cons, List.length_nil]
          omega
        rw [h1]
        simp [List.take_succ_cons]
    · simp only [if_neg hp, List.filter_cons]
      have : ¬ ((acc.length : Int) ≥ m) := by omega
      rw [if_neg this]
      rw [ih acc hacc]
      simp [hp]

/-- C8 counterexample: with `max_tables = 0` the first qualifying table is
still retained, because the stop condition is only checked after a possible
append; under the claim ("stops accumulating once `max_tables` tables have
been retained") nothing would be retained. -/
theorem max_tables_zero_still_retains_one :
    filterTables [wideTable] 0 0 = [wideTable] ∧
    ¬ ((filterTables [wideTable] 0 0).length ≤ 0) := by
  decide

/-- C8 amended: a table is retained iff its width (maximum row length,
empty tables width 0) reaches `min_columns`, subject to the cut-off: for
`max_tables ≥ 1` exactly the first `max_tables` qualifying tables are
retained (later tables silently dropped); for `max_tables ≤ 0` the loop
stops after the first table, which is still retained if it qualifies. -/
theorem filter_retains_qualifying_up_to_max :
    (∀ (tables : List Table) (minC m : Int), 1 ≤ m →
      filterTables tables minC m =
        (tables.filter (fun t => decide ((tableWidth t : Int) ≥ minC))).take m.toNat) ∧
    (∀ (tables : List Table) (minC m : Int), m ≤ 0 →
      filterTables tables minC m =
        (tables.take 1).filter (fun t => decide ((tableWidth t : Int) ≥ minC))) := by
  constructor
  · intro tables minC m hm
    unfold filterTables
    rw [filterTablesAux_characterization minC m tables [] (by simpa using (by omega : (0:Int) < m))]
    simp
  · intro tables minC m hm
    match tables with
    | [] => simp [filterTables, filterTablesAux]
    | t :: ts =>
      unfold filterTables filterTablesAux
      by_cases hp : (tableWidth t : Int) ≥ minC
      · simp only [if_pos hp]
        rw [if_pos (by simp; omega)]
        simp [List.filter_cons, decide_eq_true hp]
      · simp only [if_neg hp]
        rw [if_pos (by simp; omega)]
        simp [List.filter_cons, hp]

/-- C8 amended, witness: the cut-off at concrete inputs (three qualifying
tables, `max_tables = 1`; and the `max_tables = 0` case). -/
theorem filter_retains_qualifying_up_to_max_witness :
    filterTables [wideTable, [["c", "d"]], [["e"]]] 2 1 =
      (([wideTable, [["c", "d"]], [["e"]]] : List Table).filter
        (fun t => decide ((tableWidth t : Int) ≥ 2))).take (1 : Int).toNat ∧
    filterTables [wideTable] 0 0 =
      (([wideTable] : List Table).take 1).filter (fun t => decide ((tableWidth t : Int) ≥ 0)) :=
  ⟨filter_retains_qualifying_up_to_max.1 [wideTable, [["c", "d"]], [["e"]]] 2 1 (by decide),
   filter_retains_qualifying_up_to_max.2 [wideTable] 0 0 (by decide)⟩

/-! ## Verification results — section extractor -/

/-- C3: the script-stripping substitution is discarded (the style
substitution is applied to the raw input again), so text inside a
`<script>` block survives `_html_to_text` — here the script body `SECRET`
remains in the output — while text inside a `<style>` block is removed.
This contradicts the code's own `# Remove scripts and styles` intent. -/
theorem script_text_survives_html_to_text :
    hasSubstr (htmlToText "<script>SECRET</script> hello").data "SECRET".data = true ∧
    htmlToText "<script>SECRET</script> hello" = " SECRET hello" ∧
    hasSubstr (htmlToText "<style>HIDE</style> ok").data "HIDE".data = false := by
  decide

/-- C9: a readable, non-empty source whose normalized text has no match of
the item-header pattern yields the empty section result (no sections, count
0, no index file) without an error, whereas a missing, non-file or empty
source makes `extract` raise before any parsing. -/
theorem no_header_matches_yield_empty_result (m : SourceMeta) (content : String) :
    ((m.present = true ∧ m.isFile = true ∧ 0 < m.size) →
      findSections (htmlToText content) = [] →
      sectionExtract m content =
        .ok { sections := [], indexFile := none, sectionCount := 0 }) ∧
    ((m.present = false ∨ m.isFile = false ∨ m.size = 0) →
      ∃ e, sectionExtract m content = .error e) := by
  constructor
  · rintro ⟨hp, hf, hs⟩ hz
    have hs0 : ¬ m.size = 0 := by omega
    simp [sectionExtract, validate_source, hp, hf, hs0, hz]
  · intro h
    by_cases hp : m.present = true
    · by_cases hf : m.isFile = true
      · have hs : m.size = 0 := by
          rcases h with h' | h' | h'
          · rw [hp] at h'; exact absurd h' (by simp)
          · rw [hf] at h'; exact absurd h' (by simp)
          · exact h'
        exact ⟨"Source file is empty", by simp [sectionExtract, validate_source, hp, hf, hs]⟩
      · have hf' : m.isFile = false := by simpa using hf
        exact ⟨"Source is not a file", by simp [sectionExtract, validate_source, hp, hf']⟩
    · have hp' : m.present = false := by simpa using hp
      exact ⟨"Source file not found", by simp [sectionExtract, validate_source, hp']⟩

/-- C9 witness: a concrete header-free document on a valid source, and a
concrete missing source. -/
theorem no_header_matches_yield_empty_result_witness :
    (sectionExtract (SourceMeta.mk true true 5) "just plain text" =
      .ok { sections := [], indexFile := none, sectionCount := 0 }) ∧
    (∃ e, sectionExtract (SourceMeta.mk false true 5) "just plain text" = .error e) :=
  ⟨(no_header_matches_yield_empty_result (SourceMeta.mk true true 5) "just plain text").1
      (by decide) (by decide),
   (no_header_matches_yield_empty_result (SourceMeta.mk false true 5) "just plain text").2
      (by decide)⟩

/-! ## Verification results — fact series resolution -/

/-- Monadic bind on a success, as a rewrite rule. -/
theorem ok_bind {ε α β : Type} (a : α) (f : α → Except ε β) :
    (Except.ok a >>= f) = f a := rfl

/-- Monadic bind on a failure, as a rewrite rule. -/
theorem error_bind {ε α β : Type} (e : ε) (f : α → Except ε β) :
    ((Except.error e : Except ε α) >>= f) = .error e := rfl

/-- The character-list comparison used by the embedding agrees with the
string order. -/
theorem string_lt_iff_data_lt (a b : String) : a.data < b.data ↔ a < b := by
  rw [String.lt_iff_toList_lt]
  exact Iff.rfl

/-- `≤` on strings is the negation of the reversed character-list
comparison. -/
theorem string_le_iff_not_data_lt (a b : String) : (¬ b.data < a.data) ↔ a ≤ b := by
  constructor
  · intro h
    exact not_lt.mp (fun hc => h ((string_lt_iff_data_lt b a).mpr hc))
  · intro h hc
    exact absurd ((string_lt_iff_data_lt b a).mp hc) (not_lt.mpr h)

/-- `parseStep` when the observation has no usable date key. -/
theorem parseStep_no_date (s : Series) (fs : List (String × JValue))
    (hd : dateKeyOf fs = none) : parseStep s (.obj fs) = .ok s := by
  simp [parseStep, hd]

/-- `parseStep` on a fresh date key: the observation is inserted. -/
theorem parseStep_new_date (s : Series) (fs : List (String × JValue)) (d : JValue)
    (hd : dateKeyOf fs = some d) (hget : seriesGet s d = none) :
    parseStep s (.obj fs) = .ok (seriesSet s d (valOf fs, filedOf fs)) := by
  simp [parseStep, hd, hget]

/-- `parseStep` on a date key with a retained entry: replacement happens
exactly when the incoming filed-date string is non-empty and strictly
greater than the retained one. -/
theorem parseStep_existing
    (s : Series) (fs : List (String × JValue)) (d : JValue) (ex : JValue × JValue)
    (fstr estr : String)
    (hd : dateKeyOf fs = some d) (hex : seriesGet s d = some ex)
    (hf : filedOf fs = .str fstr) (he : ex.2 = .str estr) :
    parseStep s (.obj fs) =
      .ok (if fstr ≠ "" ∧ estr < fstr then seriesSet s d (valOf fs, .str fstr) else s) := by
  simp only [parseStep, hd, hex, hf, he]
  by_cases h0 : fstr = ""
  · subst h0
    simp [show (JValue.str "").truthy = false from by decide]
  · have ht : (JValue.str fstr).truthy = true := by
      simp [JValue.truthy, String.isEmpty_iff, h0]
    rw [if_pos ht]
    by_cases hlt : estr.data < fstr.data
    · have hlt' : estr < fstr := (string_lt_iff_data_lt estr fstr).mp hlt
      have hgt : pyGT (JValue.str fstr) (JValue.str estr) = .ok true := by
        simp [pyGT, hlt]
      rw [hgt, if_pos ⟨h0, hlt'⟩]
      rfl
    · have hlt' : ¬ estr < fstr := fun hc => hlt ((string_lt_iff_data_lt estr fstr).mpr hc)
      have hgt : pyGT (JValue.str fstr) (JValue.str estr) = .ok false := by
        simp [pyGT, hlt]
      rw [hgt, if_neg (fun hc => hlt' hc.2)]
      rfl

/-- C10: with an entry already retained for the date key, a later
observation replaces it exactly when its filed-date string is non-empty and
strictly lexicographically greater; in particular an equal filed-date keeps
the earlier entry. -/
theorem parse_step_replaces_only_on_strictly_greater_filed
    (s : Series) (fs : List (String × JValue)) (d : JValue) (ex : JValue × JValue)
    (fstr estr : String)
    (hd : dateKeyOf fs = some d) (hex : seriesGet s d = some ex)
    (hf : filedOf fs = .str fstr) (he : ex.2 = .str estr) :
    parseStep s (.obj fs) =
      .ok (if fstr ≠ "" ∧ estr < fstr then seriesSet s d (valOf fs, .str fstr) else s) ∧
    (fstr = estr → parseStep s (.obj fs) = .ok s) := by
  have hmain := parseStep_existing s fs d ex fstr estr hd hex hf he
  refine ⟨hmain, fun heq => ?_⟩
  rw [hmain, if_neg]
  rintro ⟨-, hlt⟩
  subst heq
  exact lt_irrefl _ hlt

/-- Lookup after update, same key. -/
theorem seriesGet_seriesSet_self (s : Series) (k : JValue) (v : JValue × JValue) :
    seriesGet (seriesSet s k v) k = some v := by
  induction s with
  | nil => simp [seriesSet, seriesGet]
  | cons e rest ih =>
    obtain ⟨a, w⟩ := e
    by_cases ha : a = k
    · simp [seriesSet, seriesGet, ha]
    · simp only [seriesSet, if_neg ha, seriesGet]
      exact ih

/-- Lookup after update, other key. -/
theorem seriesGet_seriesSet_other (s : Series) (k : JValue) (v : JValue × JValue)
    (k' : JValue) (h : k' ≠ k) :
    seriesGet (seriesSet s k v) k' = seriesGet s k' := by
  induction s with
  | nil =>
    simp only [seriesSet, seriesGet]
    rw [if_neg (fun hc => h hc.symm)]
  | cons e rest ih =>
    obtain ⟨a, w⟩ := e
    by_cases ha : a = k
    · subst ha
      simp only [seriesSet, if_pos rfl, seriesGet]
      rw [if_neg (fun hc => h hc.symm), if_neg (fun hc => h hc.symm)]
    · simp only [seriesSet, if_neg ha, seriesGet]
      by_cases h2 : a = k'
      · rw [if_pos h2, if_pos h2]
      · rw [if_neg h2, if_neg h2]
        exact ih

/-- The empty string is least in the string order. -/
theorem str_empty_le (s : String) : "" ≤ s := by
  rw [String.le_iff_toList_le]
  exact List.nil_le

/-- A well-formed observation record has a string filed-date. -/
theorem wfObs_filed (fs : List (String × JValue)) (h : wfObs (.obj fs) = true) :
    ∃ fstr, filedOf fs = .str fstr := by
  simp only [wfObs] at h
  cases hfo : filedOf fs
  case str t => exact ⟨t, rfl⟩
  all_goals rw [hfo] at h
  all_goals simp [JValue.isStr] at h

/-- One parse step preserves the series representation invariant. -/
theorem parseStep_rep (ys : List JValue) (s : Series) (fs : List (String × JValue))
    (hys : ∀ y ∈ ys, wfObs y = true) (hobs : wfObs (.obj fs) = true)
    (hrep : SeriesRep ys s) :
    ∃ s', parseStep s (.obj fs) = .ok s' ∧ SeriesRep (ys ++ [.obj fs]) s' := by
  obtain ⟨fstr, hf⟩ := wfObs_filed fs hobs
  cases hd : dateKeyOf fs with
  | none =>
    refine ⟨s, parseStep_no_date s fs hd, ?_, ?_⟩
    · intro d v f hget
      obtain ⟨gs, hmem, hkey, hval, hfiled, hmax⟩ := hrep.1 d v f hget
      refine ⟨gs, List.mem_append_left _ hmem, hkey, hval, hfiled, ?_⟩
      intro hs hmem' hkey'
      rcases List.mem_append.mp hmem' with hin | hin
      · exact hmax hs hin hkey'
      · simp only [List.mem_singleton] at hin
        obtain rfl : fs = hs := JValue.obj.inj hin.symm
        rw [hd] at hkey'; cases hkey'
    · intro gs hmem d hkey
      rcases List.mem_append.mp hmem with hin | hin
      · exact hrep.2 gs hin d hkey
      · simp only [List.mem_singleton] at hin
        obtain rfl : fs = gs := JValue.obj.inj hin.symm
        rw [hd] at hkey; cases hkey
  | some d =>
    cases hget : seriesGet s d with
    | none =>
      refine ⟨seriesSet s d (valOf fs, filedOf fs), parseStep_new_date s fs d hd hget, ?_, ?_⟩
      · intro d' v f hget'
        by_cases hdd : d' = d
        · subst hdd
          rw [seriesGet_seriesSet_self] at hget'
          obtain ⟨rfl, rfl⟩ : valOf fs = v ∧ filedOf fs = f := by
            injection hget' with h1
            exact ⟨congrArg Prod.fst h1, congrArg Prod.snd h1⟩
          refine ⟨fs, List.mem_append_right _ (List.mem_singleton_self _), hd, rfl, rfl, ?_⟩
          intro hs hmem' hkey'
          rcases List.mem_append.mp hmem' with hin | hin
          · have := hrep.2 hs hin d' hkey'
            rw [hget] at this; cases this
          · simp only [List.mem_singleton] at hin
            obtain rfl : fs = hs := JValue.obj.inj hin.symm
            exact le_refl _
        · rw [seriesGet_seriesSet_other s d _ d' hdd] at hget'
          obtain ⟨gs, hmem, hkey, hval, hfiled, hmax⟩ := hrep.1 d' v f hget'
          refine ⟨gs, List.mem_append_left _ hmem, hkey, hval, hfiled, ?_⟩
          intro hs hmem' hkey'
          rcases List.mem_append.mp hmem' with hin | hin
          · exact hmax hs hin hkey'
          · simp only [List.mem_singleton] at hin
            obtain rfl : fs = hs := JValue.obj.inj hin.symm
            rw [hd] at hkey'
            exact absurd (Option.some.inj hkey').symm hdd
      · intro gs hmem d' hkey
        rcases List.mem_append.mp hmem with hin | hin
        · by_cases hdd : d' = d
          · subst hdd; rw [seriesGet_seriesSet_self]; rfl
          · rw [seriesGet_seriesSet_other s d _ d' hdd]
            exact hrep.2 gs hin d' hkey
        · simp only [List.mem_singleton] at hin
          obtain rfl : fs = gs := JValue.obj.inj hin.symm
          rw [hd] at hkey
          obtain rfl := Option.some.inj hkey
          rw [seriesGet_seriesSet_self]; rfl
    | some ex =>
      obtain ⟨gs0, h0mem, h0key, h0val, h0filed, h0max⟩ := hrep.1 d ex.1 ex.2 (by rw [hget])
      obtain ⟨estr, he⟩ : ∃ estr, ex.2 = .str estr := by
        obtain ⟨estr, he0⟩ := wfObs_filed gs0 (hys _ h0mem)
        exact ⟨estr, by rw [← h0filed, he0]⟩
      have hstep := parseStep_existing s fs d ex fstr estr hd hget hf he
      by_cases hc : fstr ≠ "" ∧ estr < fstr
      · rw [if_pos hc] at hstep
        refine ⟨_, hstep, ?_, ?_⟩
        · intro d' v f hget'
          by_cases hdd : d' = d
          · subst hdd
            rw [seriesGet_seriesSet_self] at hget'
            obtain ⟨rfl, rfl⟩ : valOf fs = v ∧ JValue.str fstr = f := by
              injection hget' with h1
              exact ⟨congrArg Prod.fst h1, congrArg Prod.snd h1⟩
            refine ⟨fs, List.mem_append_right _ (List.mem_singleton_self _), hd, rfl, hf, ?_⟩
            intro hs hmem' hkey'
            rcases List.mem_append.mp hmem' with hin | hin
            · have hle := h0max hs hin hkey'
              rw [he] at hle
              exact le_trans hle (by simpa [strOf] using le_of_lt hc.2)
            · simp only [List.mem_singleton] at hin
              obtain rfl : fs = hs := JValue.obj.inj hin.symm
              exact le_of_eq (by rw [hf])
          · rw [seriesGet_seriesSet_other s d _ d' hdd] at hget'
            obtain ⟨gs, hmem, hkey, hval, hfiled, hmax⟩ := hrep.1 d' v f hget'
            refine ⟨gs, List.mem_append_left _ hmem, hkey, hval, hfiled, ?_⟩
            intro hs hmem' hkey'
            rcases List.mem_append.mp hmem' with hin | hin
            · exact hmax hs hin hkey'
            · simp only [List.mem_singleton] at hin
              obtain rfl : fs = hs := JValue.obj.inj hin.symm
              rw [hd] at hkey'
              exact absurd (Option.some.inj hkey').symm hdd
        · intro gs hmem d' hkey
          rcases List.mem_append.mp hmem with hin | hin
          · by_cases hdd : d' = d
            · subst hdd; rw [seriesGet_seriesSet_self]; rfl
            · rw [seriesGet_seriesSet_other s d _ d' hdd]
              exact hrep.2 gs hin d' hkey
          · simp only [List.mem_singleton] at hin
            obtain rfl : fs = gs := JValue.obj.inj hin.symm
            rw [hd] at hkey
            obtain rfl := Option.some.inj hkey
            rw [seriesGet_seriesSet_self]; rfl
      · rw [if_neg hc] at hstep
        have hfle : strOf (filedOf fs) ≤ strOf ex.2 := by
          rw [hf, he]
          simp only [strOf]
          rcases Decidable.not_and_iff_or_not.mp hc with h1 | h1
          · obtain rfl : fstr = "" := Decidable.not_not.mp h1
            exact str_empty_le estr
          · exact not_lt.mp h1
        refine ⟨s, hstep, ?_, ?_⟩
        · intro d' v f hget'
          obtain ⟨gs, hmem, hkey, hval, hfiled, hmax⟩ := hrep.1 d' v f hget'
          refine ⟨gs, List.mem_append_left _ hmem, hkey, hval, hfiled, ?_⟩
          intro hs hmem' hkey'
          rcases List.mem_append.mp hmem' with hin | hin
          · exact hmax hs hin hkey'
          · simp only [List.mem_singleton] at hin
            obtain rfl : fs = hs := JValue.obj.inj hin.symm
            rw [hd] at hkey'
            obtain rfl := Option.some.inj hkey'
            have hfex : f = ex.2 := by
              have hx := hget'
              rw [hget] at hx
              injection hx with h1
              exact (congrArg Prod.snd h1).symm
            rw [hfex]
            exact hfle
        · intro gs hmem d' hkey
          rcases List.mem_append.mp hmem with hin | hin
          · exact hrep.2 gs hin d' hkey
          · simp only [List.mem_singleton] at hin
            obtain rfl : fs = gs := JValue.obj.inj hin.symm
            rw [hd] at hkey
            obtain rfl := Option.some.inj hkey
            rw [hget]; rfl

/-- The parse loop preserves the representation invariant. -/
theorem parseLoop_rep : ∀ (xs ys : List JValue) (s : Series),
    (∀ y ∈ ys, wfObs y = true) → (∀ y ∈ xs, wfObs y = true) → SeriesRep ys s →
    ∃ s', parseLoop s xs = .ok s' ∧ SeriesRep (ys ++ xs) s'
  | [], ys, s, _, _, hrep => ⟨s, rfl, by simpa using hrep⟩
  | x :: xs, ys, s, hys, hxs, hrep => by
    have hx : wfObs x = true := hxs x (List.mem_cons_self _ _)
    cases x with
    | obj fs =>
      obtain ⟨s1, hstep, hrep1⟩ := parseStep_rep ys s fs hys hx hrep
      have hys1 : ∀ y ∈ ys ++ [JValue.obj fs], wfObs y = true := by
        intro y hmem
        rcases List.mem_append.mp hmem with hin | hin
        · exact hys y hin
        · simp only [List.mem_singleton] at hin; subst hin; exact hx
      obtain ⟨s', hloop, hrep'⟩ :=
        parseLoop_rep xs (ys ++ [JValue.obj fs]) s1 hys1
          (fun y hy => hxs y (List.mem_cons_of_mem _ hy)) hrep1
      refine ⟨s', ?_, by simpa using hrep'⟩
      simp only [parseLoop, hstep]
      exact hloop
    | null => simp [wfObs] at hx
    | boolean b => simp [wfObs] at hx
    | num n => simp [wfObs] at hx
    | str t => simp [wfObs] at hx
    | arr l => simp [wfObs] at hx

/-- C1: for a list of well-formed unit observations, `_parse_unit_series`
succeeds and maps each usable date key to the `(value, filed)` of an
observation carrying that key whose filed-date is lexicographically greatest
among all observations sharing the key; every usable date key is present;
and an observation with a falsy (e.g. empty) filed-date never replaces an
already-retained entry. -/
theorem parse_unit_series_keeps_greatest_filed (xs : List JValue)
    (hwf : ∀ x ∈ xs, wfObs x = true) :
    (∃ s, parseUnitSeries (.arr xs) = .ok s ∧
      (∀ d v f, seriesGet s d = some (v, f) →
        ∃ fs, JValue.obj fs ∈ xs ∧ dateKeyOf fs = some d ∧ valOf fs = v ∧ filedOf fs = f ∧
          ∀ gs, JValue.obj gs ∈ xs → dateKeyOf gs = some d → strOf (filedOf gs) ≤ strOf f) ∧
      (∀ fs, JValue.obj fs ∈ xs → ∀ d, dateKeyOf fs = some d → (seriesGet s d).isSome = true)) ∧
    (∀ (s : Series) (fs : List (String × JValue)) (d : JValue) (e : JValue × JValue),
      dateKeyOf fs = some d → seriesGet s d = some e → (filedOf fs).truthy = false →
      parseStep s (.obj fs) = .ok s) := by
  constructor
  · have hrep0 : SeriesRep [] [] := by
      constructor
      · intro d v f hget; simp [seriesGet] at hget
      · intro fs hmem; simp at hmem
    obtain ⟨s, hloop, hrep⟩ := parseLoop_rep xs [] [] (by simp) hwf hrep0
    refine ⟨s, ?_, ?_, ?_⟩
    · show iterElems (.arr xs) >>= parseLoop [] = .ok s
      simpa [iterElems] using hloop
    · intro d v f hget
      simpa using hrep.1 d v f hget
    · intro fs hmem d hkey
      exact hrep.2 fs (by simpa using hmem) d hkey
  · intro s fs d e hd hget hf0
    simp only [parseStep, hd, hget, hf0]
    rfl

/-- C1 witness: the spec's conflict-resolution example (filed-dates
"2023-01-10" vs "2023-02-15", values 100 and 120) resolves to value 120 with
the greatest filed-date, and instantiates the general statement. -/
theorem parse_unit_series_keeps_greatest_filed_witness :
    ((∃ s, parseUnitSeries (.arr conflictObsList) = .ok s ∧
      (∀ d v f, seriesGet s d = some (v, f) →
        ∃ fs, JValue.obj fs ∈ conflictObsList ∧ dateKeyOf fs = some d ∧ valOf fs = v ∧
          filedOf fs = f ∧
          ∀ gs, JValue.obj gs ∈ conflictObsList → dateKeyOf gs = some d →
            strOf (filedOf gs) ≤ strOf f) ∧
      (∀ fs, JValue.obj fs ∈ conflictObsList → ∀ d, dateKeyOf fs = some d →
        (seriesGet s d).isSome = true)) ∧
    (∀ (s : Series) (fs : List (String × JValue)) (d : JValue) (e : JValue × JValue),
      dateKeyOf fs = some d → seriesGet s d = some e → (filedOf fs).truthy = false →
      parseStep s (.obj fs) = .ok s)) ∧
    parseUnitSeries (.arr conflictObsList) =
      .ok [(.str "2023-03-31", .num 120, .str "2023-02-15")] :=
  ⟨parse_unit_series_keeps_greatest_filed conflictObsList (by decide), by decide⟩

/-- C10 witness: an equal-filed duplicate observation leaves the retained
entry in place, both at the single-step level and for the full parse of a
two-observation list. -/
theorem parse_step_replaces_only_on_strictly_greater_filed_witness :
    parseStep [(.str "2023-03-31", .num 100, .str "2023-02-15")]
        (.obj [("end", .str "2023-03-31"), ("val", .num 777), ("filed", .str "2023-02-15")]) =
      .ok [(.str "2023-03-31", .num 100, .str "2023-02-15")] ∧
    parseUnitSeries (.arr equalFiledObsList) =
      .ok [(.str "2023-03-31", .num 100, .str "2023-02-15")] :=
  ⟨(parse_step_replaces_only_on_strictly_greater_filed
      [(.str "2023-03-31", .num 100, .str "2023-02-15")]
      [("end", .str "2023-03-31"), ("val", .num 777), ("filed", .str "2023-02-15")]
      (.str "2023-03-31") (.num 100, .str "2023-02-15") "2023-02-15" "2023-02-15"
      (by decide) (by decide) (by decide) (by decide)).2 rfl,
   by decide⟩

/-- The fallback loop yields the parse of the first unit value with a
non-empty series (or the empty series). -/
theorem firstNonEmpty_spec : ∀ (vs : List JValue),
    (∀ v ∈ vs, ∃ s, parseUnitSeries v = .ok s) →
    firstNonEmpty vs =
      .ok (match vs.find? (fun v => !(okSeries v).isEmpty) with
           | some v => okSeries v
           | none => [])
  | [], _ => rfl
  | v :: vs, h => by
    obtain ⟨s, hs⟩ := h v (List.mem_cons_self _ _)
    have hok : okSeries v = s := by simp [okSeries, hs]
    simp only [firstNonEmpty, hs, List.find?]
    by_cases hempty : s.isEmpty
    · have hnil : s = [] := by simpa using hempty
      subst hnil
      have hfalse : (!(okSeries v).isEmpty) = false := by simp [hok]
      rw [hfalse]
      simpa [ok_bind] using firstNonEmpty_spec vs (fun w hw => h w (List.mem_cons_of_mem _ hw))
    · have hne : s ≠ [] := by
        intro hh
        exact hempty (by simp [hh])
      have hbe : (!(okSeries v).isEmpty) = true := by simp [hok, hne]
      rw [hbe]
      simp [ok_bind, hne, hok]

/-- C6: when the unit map holds a preferred unit, `_extract_series` returns
exactly the parse of the first preferred unit present (in preference order);
when none is present, it returns the series of the first unit, in the fact's
own unit ordering, whose parse is non-empty (or the empty series if none
is). -/
theorem extract_series_unit_preference
    (fs ufs : List (String × JValue)) (h : jlookup fs "units" = some (.obj ufs)) :
    (∀ u, preferredUnits.find? (fun u => (jlookup ufs u).isSome) = some u →
      ∃ v, jlookup ufs u = some v ∧ extractSeries (.obj fs) = parseUnitSeries v) ∧
    ((∀ u ∈ preferredUnits, jlookup ufs u = none) →
      (∀ p ∈ ufs, ∃ s, parseUnitSeries p.2 = .ok s) →
      extractSeries (.obj fs) =
        .ok (match ufs.find? (fun p => !(okSeries p.2).isEmpty) with
             | some p => okSeries p.2
             | none => [])) := by
  have hunits : pyGetD (.obj fs) "units" (.obj []) = .ok (.obj ufs) := by
    simp [pyGetD, h]
  constructor
  · intro u hfind
    cases hU : (jlookup ufs "USD") with
    | some vU =>
      have hu : u = "USD" := by
        simp [preferredUnits, List.find?, hU] at hfind
        exact hfind.symm
      subst hu
      refine ⟨vU, hU, ?_⟩
      simp [extractSeries, hunits, ok_bind, firstPreferred, jContains, hU, jIndex,
        preferredUnits]
    | none =>
      cases hS : (jlookup ufs "shares") with
      | some vS =>
        have hu : u = "shares" := by
          simp [preferredUnits, List.find?, hU, hS] at hfind
          exact hfind.symm
        subst hu
        refine ⟨vS, hS, ?_⟩
        simp [extractSeries, hunits, ok_bind, firstPreferred, jContains, hU, hS, jIndex,
          preferredUnits]
      | none => simp [preferredUnits, List.find?, hU, hS] at hfind
  · intro hnone hall
    have hU : jlookup ufs "USD" = none := hnone "USD" (by simp [preferredUnits])
    have hS : jlookup ufs "shares" = none := hnone "shares" (by simp [preferredUnits])
    have hfb : extractSeries (.obj fs) = firstNonEmpty (ufs.map Prod.snd) := by
      simp [extractSeries, hunits, ok_bind, firstPreferred, jContains, hU, hS,
        preferredUnits, jvalues]
    rw [hfb, firstNonEmpty_spec (ufs.map Prod.snd)
      (fun v hv => by
        obtain ⟨p, hp, rfl⟩ := List.mem_map.mp hv
        exact hall p hp)]
    rw [List.find?_map]
    have hcomp : ufs.find? ((fun v => !(okSeries v).isEmpty) ∘ Prod.snd) =
        ufs.find? (fun p => !(okSeries p.2).isEmpty) := rfl
    rw [hcomp]
    cases hfind : ufs.find? (fun p => !(okSeries p.2).isEmpty) with
    | some p => rfl
    | none => rfl

/-- C6 witness: a fact carried in both USD (one observation) and shares
(three observations) resolves through USD only. -/
theorem extract_series_unit_preference_witness :
    (∃ v, jlookup unitMapUsdShares "USD" = some v ∧
      extractSeries (.obj factUsdShares) = parseUnitSeries v) ∧
    extractSeries (.obj factUsdShares) =
      .ok [(.str "2023-12-31", .num 500, .str "2024-02-01")] :=
  ⟨(extract_series_unit_preference factUsdShares unitMapUsdShares (by decide)).1
      "USD" (by decide),
   by decide⟩

/-! ## Verification results — statement batch error propagation -/

/-- C4 counterexample: in `gMalformed` exactly one concept (`Assets`) has
malformed unit data (an observation that is not a record) while `Revenues`
is healthy; `extract` raises `ExtractionError` and produces *no* statement
at all, although the same graph without the malformed concept yields the
income statement.  Under the claim the malformed concept would only degrade
its own column and the batch would still be generated. -/
theorem one_malformed_concept_aborts_whole_batch :
    fe_extract gMalformed = .error "Failed to extract financial statements: AttributeError" ∧
    fe_extract gHealthy =
      .ok [("IS", { header := "Date" :: incomeStatementConcepts,
                    rows := [[.str "2023-12-31", .num 10, .str "", .str "", .str "", .str "",
                              .str "", .str "", .str "", .str "", .str "", .str ""]] })] := by
  constructor
  · decide
  · decide

/-- C4 amended: a concept that is absent from the graph (or falsy, or with
an empty resolved series) degrades only that concept — its column header is
still emitted and its cells are empty — without aborting anything; but a
concept whose unit data raises (units not a mapping, or an observation not
a record) aborts the generation of the whole statement and of every other
statement in the batch through the `ExtractionError` re-raise. -/
theorem absent_concept_degrades_column_malformed_aborts :
    fe_extract gAbsent =
      .ok [("BS", { header := "Date" :: balanceSheetConcepts,
                    rows := [[.str "2023-12-31", .str "", .str "", .num 50, .str "", .str "",
                              .str "", .str "", .str "", .str "", .str ""]] })] ∧
    (fe_extract gMalformed).isOk = false := by
  constructor
  · decide
  · decide

/-! ## Verification results — statement shape (C7 infrastructure) -/

/-- The keys of an updated series are the old keys plus possibly the new
one. -/
theorem seriesSet_keys_mem (s : Series) (k : JValue) (v : JValue × JValue) (x : JValue) :
    x ∈ (seriesSet s k v).map Prod.fst ↔ x ∈ s.map Prod.fst ∨ x = k := by
  induction s with
  | nil => simp [seriesSet]
  | cons e rest ih =>
    obtain ⟨a, w⟩ := e
    simp only [seriesSet]
    by_cases ha : a = k
    · rw [if_pos ha]
      subst ha
      simp only [List.map_cons, List.mem_cons]
      tauto
    · rw [if_neg ha]
      simp only [List.map_cons, List.mem_cons, ih]
      tauto

/-- Updating preserves distinctness of the keys. -/
theorem seriesSet_keys_nodup (s : Series) (k : JValue) (v : JValue × JValue)
    (h : (s.map Prod.fst).Nodup) : ((seriesSet s k v).map Prod.fst).Nodup := by
  induction s with
  | nil => simp [seriesSet]
  | cons e rest ih =>
    obtain ⟨a, w⟩ := e
    simp only [List.map_cons, List.nodup_cons] at h
    simp only [seriesSet]
    by_cases ha : a = k
    · rw [if_pos ha]
      subst ha
      simp only [List.map_cons, List.nodup_cons]
      exact h
    · rw [if_neg ha]
      simp only [List.map_cons, List.nodup_cons]
      refine ⟨?_, ih h.2⟩
      intro hmem
      rcases (seriesSet_keys_mem rest k v a).mp hmem with hx | hx
      · exact h.1 hx
      · exact ha hx

/-- A date key is retrievable iff it occurs among the series keys. -/
theorem seriesGet_isSome_iff (s : Series) (d : JValue) :
    (seriesGet s d).isSome = true ↔ d ∈ s.map Prod.fst := by
  induction s with
  | nil => simp [seriesGet]
  | cons e rest ih =>
    obtain ⟨a, w⟩ := e
    by_cases ha : a = d
    · subst ha
      simp [seriesGet]
    · simp only [seriesGet, if_neg ha, List.map_cons, List.mem_cons, ih]
      constructor
      · exact Or.inr
      · rintro (rfl | hx)
        · exact absurd rfl ha
        · exact hx

/-- A successful parse step leaves the series unchanged or updates one
key. -/
theorem parseStep_cases (s : Series) (x : JValue) (s' : Series)
    (h : parseStep s x = .ok s') :
    s' = s ∨ ∃ d v, s' = seriesSet s d v := by
  cases x with
  | obj fs =>
    simp only [parseStep] at h
    cases hd : dateKeyOf fs with
    | none => simp only [hd] at h; exact Or.inl (Except.ok.inj h).symm
    | some d =>
      simp only [hd] at h
      cases hget : seriesGet s d with
      | none =>
        simp only [hget] at h
        exact Or.inr ⟨d, _, (Except.ok.inj h).symm⟩
      | some ex =>
        simp only [hget] at h
        by_cases ht : (filedOf fs).truthy = true
        · rw [if_pos ht] at h
          cases hb : pyGT (filedOf fs) ex.2 with
          | error e => simp only [hb, error_bind] at h; cases h
          | ok b =>
            simp only [hb] at h
            cases b with
            | true =>
              simp only [ok_bind, if_pos rfl] at h
              exact Or.inr ⟨d, _, (Except.ok.inj h).symm⟩
            | false =>
              simp only [ok_bind] at h
              exact Or.inl (Except.ok.inj h).symm
        · rw [if_neg ht] at h
          exact Or.inl (Except.ok.inj h).symm
  | null => cases h
  | boolean b => cases h
  | num n => cases h
  | str t => cases h
  | arr l => cases h

/-- A successful parse step preserves key distinctness. -/
theorem parseStep_keys_nodup (s : Series) (x : JValue) (s' : Series)
    (h : parseStep s x = .ok s') (hn : (s.map Prod.fst).Nodup) :
    (s'.map Prod.fst).Nodup := by
  rcases parseStep_cases s x s' h with rfl | ⟨d, v, rfl⟩
  · exact hn
  · exact seriesSet_keys_nodup s d v hn

/-- The parse loop preserves key distinctness. -/
theorem parseLoop_keys_nodup : ∀ (xs : List JValue) (s s' : Series),
    parseLoop s xs = .ok s' → (s.map Prod.fst).Nodup → (s'.map Prod.fst).Nodup
  | [], s, s', h, hn => by
    rw [(Except.ok.inj h)] at hn; exact hn
  | x :: xs, s, s', h, hn => by
    simp only [parseLoop] at h
    cases hstep : parseStep s x with
    | error e => rw [hstep] at h; cases h
    | ok s1 =>
      rw [hstep] at h
      exact parseLoop_keys_nodup xs s1 s' h (parseStep_keys_nodup s x s1 hstep hn)

/-- A parsed unit series has pairwise-distinct date keys. -/
theorem parseUnitSeries_keys_nodup (v : JValue) (s : Series)
    (h : parseUnitSeries v = .ok s) : (s.map Prod.fst).Nodup := by
  simp only [parseUnitSeries] at h
  cases hit : iterElems v with
  | error e => rw [hit] at h; cases h
  | ok xs =>
    rw [hit] at h
    simp only [ok_bind] at h
    exact parseLoop_keys_nodup xs [] s h (by simp)

/-- The fallback loop also yields series with distinct keys. -/
theorem firstNonEmpty_keys_nodup : ∀ (vs : List JValue) (s : Series),
    firstNonEmpty vs = .ok s → (s.map Prod.fst).Nodup
  | [], s, h => by rw [← Except.ok.inj h]; simp
  | v :: vs, s, h => by
    simp only [firstNonEmpty] at h
    cases hp : parseUnitSeries v with
    | error e => rw [hp] at h; cases h
    | ok s1 =>
      rw [hp] at h
      simp only [ok_bind] at h
      by_cases hemp : s1.isEmpty
      · rw [if_pos hemp] at h
        exact firstNonEmpty_keys_nodup vs s h
      · rw [if_neg hemp] at h
        rw [← Except.ok.inj h]
        exact parseUnitSeries_keys_nodup v s1 hp

/-- A successfully extracted series has pairwise-distinct date keys. -/
theorem extractSeries_keys_nodup (f : JValue) (s : Series)
    (h : extractSeries f = .ok s) : (s.map Prod.fst).Nodup := by
  simp only [extractSeries] at h
  cases hu : pyGetD f "units" (.obj []) with
  | error e => rw [hu] at h; cases h
  | ok units =>
    rw [hu] at h
    simp only [ok_bind] at h
    cases hfp : firstPreferred preferredUnits units with
    | error e => rw [hfp] at h; cases h
    | ok o =>
      rw [hfp] at h
      simp only [ok_bind] at h
      cases o with
      | some u =>
        cases hidx : jIndex units u with
        | error e => simp only [hidx, error_bind] at h; cases h
        | ok v =>
          simp only [hidx, ok_bind] at h
          exact parseUnitSeries_keys_nodup v s h
      | none =>
        cases hv : jvalues units with
        | error e => simp only [hv, error_bind] at h; cases h
        | ok vs =>
          simp only [hv, ok_bind] at h
          exact firstNonEmpty_keys_nodup vs s h

/-- The series `_generate_statement` uses for a concept has distinct
keys. -/
theorem resolvedSeries_keys_nodup (gfs : List (String × JValue)) (c : String) :
    ((resolvedSeries gfs c).map Prod.fst).Nodup := by
  unfold resolvedSeries
  cases jlookup gfs c with
  | none => simp
  | some f =>
    by_cases ht : f.truthy = true
    · simp only [ht]
      cases hx : extractSeries f with
      | error e => simp
      | ok s => simpa using extractSeries_keys_nodup f s hx
    · simp [ht]

/-- When the per-concept loop succeeds it computes `pureCollect`. -/
theorem collectLoop_eq_pureCollect (gfs : List (String × JValue)) :
    ∀ (cs : List String) (acc : List (String × Series) × List JValue) r,
      collectLoop gfs acc cs = .ok r → r = pureCollect gfs acc cs
  | [], acc, r, h => by
    simp only [collectLoop] at h
    rw [← Except.ok.inj h]
    rfl
  | c :: cs, acc, r, h => by
    simp only [collectLoop] at h
    simp only [pureCollect]
    cases hl : jlookup gfs c with
    | none =>
      simp only [hl] at h
      have hres : resolvedSeries gfs c = [] := by simp [resolvedSeries, hl]
      rw [hres]
      simpa using collectLoop_eq_pureCollect gfs cs acc r h
    | some f =>
      simp only [hl] at h
      by_cases ht : f.truthy = true
      · rw [if_neg (by simp [ht])] at h
        cases hx : extractSeries f with
        | error e => simp only [hx] at h; cases h
        | ok series =>
          simp only [hx] at h
          have hres : resolvedSeries gfs c = series := by
            simp [resolvedSeries, hl, ht, hx]
          rw [hres]
          by_cases hemp : series.isEmpty
          · rw [if_pos hemp] at h
            rw [if_pos hemp]
            exact collectLoop_eq_pureCollect gfs cs acc r h
          · rw [if_neg hemp] at h
            rw [if_neg hemp]
            exact collectLoop_eq_pureCollect gfs cs _ r h
      · rw [if_pos ht] at h
        have hres : resolvedSeries gfs c = [] := by simp [resolvedSeries, hl, ht]
        rw [hres]
        simp only [List.isEmpty_nil, reduceIte]
        simpa using collectLoop_eq_pureCollect gfs cs acc r h

/-- Membership in the accumulated date set. -/
theorem datesUnion_mem (a ks : List JValue) (d : JValue) :
    d ∈ datesUnion a ks ↔ d ∈ a ∨ d ∈ ks := by
  simp only [datesUnion, List.mem_append, List.mem_filter]
  constructor
  · rintro (h | ⟨h, -⟩)
    · exact Or.inl h
    · exact Or.inr h
  · rintro (h | h)
    · exact Or.inl h
    · by_cases hd : d ∈ a
      · exact Or.inl hd
      · exact Or.inr ⟨h, by simpa using hd⟩

/-- The accumulated date set stays duplicate-free. -/
theorem datesUnion_nodup (a ks : List JValue) (ha : a.Nodup) (hk : ks.Nodup) :
    (datesUnion a ks).Nodup := by
  unfold datesUnion
  refine List.Nodup.append ha (hk.filter _) ?_
  intro x hx hx'
  obtain ⟨-, hmem⟩ := List.mem_filter.mp hx'
  simp only [decide_eq_true_eq] at hmem
  exact hmem (List.elem_iff.mpr hx)

/-- Lookup in an association list extended on the right. -/
theorem csLookup_append_single (l : List (String × Series)) (c0 : String) (s0 : Series)
    (c : String) :
    csLookup (l ++ [(c0, s0)]) c =
      match csLookup l c with
      | some s => some s
      | none => if c0 = c then some s0 else none := by
  induction l with
  | nil => simp [csLookup]
  | cons e rest ih =>
    obtain ⟨a, w⟩ := e
    by_cases ha : a = c
    · simp [csLookup, ha]
    · simp only [List.cons_append, csLookup, if_neg ha]
      exact ih

/-- Everything retrievable from the accumulated `concept_series` of
`pureCollect` was already in the accumulator or is a (non-empty) resolved
series. -/
theorem pureCollect_csLookup (gfs : List (String × JValue)) :
    ∀ (cs : List String) (acc : List (String × Series) × List JValue) (c : String) s,
      csLookup (pureCollect gfs acc cs).1 c = some s →
      csLookup acc.1 c = some s ∨ (s = resolvedSeries gfs c ∧ s ≠ [])
  | [], acc, c, s, h => Or.inl h
  | c0 :: cs, acc, c, s, h => by
    simp only [pureCollect] at h
    by_cases hemp : (resolvedSeries gfs c0).isEmpty
    · rw [if_pos hemp] at h
      exact pureCollect_csLookup gfs cs acc c s h
    · rw [if_neg hemp] at h
      rcases pureCollect_csLookup gfs cs _ c s h with hin | hres
      · rw [csLookup_append_single] at hin
        cases hl : csLookup acc.1 c with
        | some w =>
          rw [hl] at hin
          exact Or.inl hin
        | none =>
          rw [hl] at hin
          by_cases hc : c0 = c
          · rw [if_pos hc] at hin
            obtain rfl := Option.some.inj hin
            subst hc
            exact Or.inr ⟨rfl, by simpa [List.isEmpty_iff] using hemp⟩
          · rw [if_neg hc] at hin
            cases hin
      · exact Or.inr hres

/-- The dates collected by `pureCollect` are exactly the accumulator's dates
plus the keys of the concepts' resolved series. -/
theorem pureCollect_dates_mem (gfs : List (String × JValue)) :
    ∀ (cs : List String) (acc : List (String × Series) × List JValue) (d : JValue),
      d ∈ (pureCollect gfs acc cs).2 ↔
        d ∈ acc.2 ∨ ∃ c ∈ cs, d ∈ (resolvedSeries gfs c).map Prod.fst
  | [], acc, d => by simp [pureCollect]
  | c0 :: cs, acc, d => by
    simp only [pureCollect]
    by_cases hemp : (resolvedSeries gfs c0).isEmpty
    · rw [if_pos hemp]
      rw [pureCollect_dates_mem gfs cs acc d]
      have hres : resolvedSeries gfs c0 = [] := by simpa [List.isEmpty_iff] using hemp
      simp only [List.mem_cons]
      constructor
      · rintro (h | ⟨c, hc, hd⟩)
        · exact Or.inl h
        · exact Or.inr ⟨c, Or.inr hc, hd⟩
      · rintro (h | ⟨c, rfl | hc, hd⟩)
        · exact Or.inl h
        · rw [hres] at hd; simp at hd
        · exact Or.inr ⟨c, hc, hd⟩
    · rw [if_neg hemp]
      rw [pureCollect_dates_mem gfs cs _ d]
      simp only [datesUnion_mem, List.mem_cons]
      constructor
      · rintro ((h | h) | ⟨c, hc, hd⟩)
        · exact Or.inl h
        · exact Or.inr ⟨c0, Or.inl rfl, h⟩
        · exact Or.inr ⟨c, Or.inr hc, hd⟩
      · rintro (h | ⟨c, rfl | hc, hd⟩)
        · exact Or.inl (Or.inl h)
        · exact Or.inl (Or.inr hd)
        · exact Or.inr ⟨c, hc, hd⟩

/-- The collected date set is duplicate-free. -/
theorem pureCollect_dates_nodup (gfs : List (String × JValue)) :
    ∀ (cs : List String) (acc : List (String × Series) × List JValue),
      acc.2.Nodup → (pureCollect gfs acc cs).2.Nodup
  | [], acc, h => h
  | c0 :: cs, acc, h => by
    simp only [pureCollect]
    by_cases hemp : (resolvedSeries gfs c0).isEmpty
    · rw [if_pos hemp]
      exact pureCollect_dates_nodup gfs cs acc h
    · rw [if_neg hemp]
      refine pureCollect_dates_nodup gfs cs _ ?_
      exact datesUnion_nodup _ _ h (resolvedSeries_keys_nodup gfs c0)

/-- C7: whenever `_generate_statement` produces a statement, it has the
header `Date` followed by the fixed concept list; exactly one data row per
date in the union of the concepts' resolved-series keys, the rows in
strictly ascending plain string order of their date cells; each row has one
cell per concept (after the date cell), in list order; and a `(date,
concept)` pair with no resolved value yields the empty-string cell rather
than an omitted one. -/
theorem generate_statement_shape (gfs : List (String × JValue)) (concepts : List String)
    (st : Statement)
    (hok : generateStatement (.obj gfs) concepts = .ok (some st))
    (hstr : ∀ c ∈ concepts, ∀ e ∈ resolvedSeries gfs c, e.1.isStr = true) :
    (st.rows.map (fun r => r.headD .null)).Pairwise (fun a b => strOf a < strOf b) ∧
    (∀ d, d ∈ st.rows.map (fun r => r.headD .null) ↔
      ∃ c ∈ concepts, (seriesGet (resolvedSeries gfs c) d).isSome = true) ∧
    (∀ r ∈ st.rows, r.length = concepts.length + 1) ∧
    (∀ r ∈ st.rows, ∀ j, (hj : j < concepts.length) →
      seriesGet (resolvedSeries gfs (concepts.get ⟨j, hj⟩)) (r.headD .null) = none →
      r.get? (j + 1) = some (.str "")) ∧
    st.header = "Date" :: concepts := by
  cases hacc : collectLoop gfs ([], []) concepts with
  | error e => simp only [generateStatement, hacc, error_bind] at hok; cases hok
  | ok acc =>
    simp only [generateStatement, hacc, ok_bind] at hok
    have hacc_eq := collectLoop_eq_pureCollect gfs concepts ([], []) acc hacc
    by_cases hemp : acc.2.isEmpty
    · rw [if_pos hemp] at hok
      simp at hok
    · rw [if_neg hemp] at hok
      cases hsort : pySorted acc.2 with
      | error e => simp only [hsort, error_bind] at hok; cases hok
      | ok sorted =>
        simp only [hsort, ok_bind] at hok
        obtain rfl : st =
            { header := "Date" :: concepts,
              rows := sorted.map (fun d => d :: concepts.map (fun c => cellFor acc.1 c d)) } :=
          (Option.some.inj (Except.ok.inj hok)).symm
        -- every collected date is a string value
        have hmemAD : ∀ d, d ∈ acc.2 ↔
            ∃ c ∈ concepts, d ∈ (resolvedSeries gfs c).map Prod.fst := by
          intro d
          rw [hacc_eq, pureCollect_dates_mem gfs concepts ([], []) d]
          simp
        have hallstr : ∀ d ∈ acc.2, d.isStr = true := by
          intro d hd
          obtain ⟨c, hc, hdk⟩ := (hmemAD d).mp hd
          obtain ⟨e, he, rfl⟩ := List.mem_map.mp hdk
          exact hstr c hc e he
        have hADnodup : acc.2.Nodup := by
          rw [hacc_eq]
          exact pureCollect_dates_nodup gfs concepts ([], []) (by simp)
        -- the sort that actually ran
        have hsort_eq : sorted =
            acc.2.insertionSort (fun a b => ¬ (strOf b).data < (strOf a).data) := by
          have : pySorted acc.2 =
              .ok (acc.2.insertionSort (fun a b => ¬ (strOf b).data < (strOf a).data)) := by
            unfold pySorted
            rw [if_pos (List.all_eq_true.mpr hallstr)]
          rw [this] at hsort
          exact (Except.ok.inj hsort).symm
        have hperm : sorted.Perm acc.2 := by
          rw [hsort_eq]
          exact List.perm_insertionSort _ _
        have hr_iff : ∀ a b : JValue,
            (¬ (strOf b).data < (strOf a).data) ↔ strOf a ≤ strOf b := fun a b =>
          string_le_iff_not_data_lt (strOf a) (strOf b)
        haveI hTot : IsTotal JValue (fun a b => ¬ (strOf b).data < (strOf a).data) := by
          constructor
          intro a b
          rcases le_total (strOf a) (strOf b) with h | h
          · exact Or.inl ((hr_iff a b).mpr h)
          · exact Or.inr ((hr_iff b a).mpr h)
        haveI hTrans : IsTrans JValue (fun a b => ¬ (strOf b).data < (strOf a).data) := by
          constructor
          intro a b c hab hbc
          exact (hr_iff a c).mpr (le_trans ((hr_iff a b).mp hab) ((hr_iff b c).mp hbc))
        have hsorted : sorted.Pairwise (fun a b => ¬ (strOf b).data < (strOf a).data) := by
          rw [hsort_eq]
          exact List.sorted_insertionSort _ _
        have hnodup : sorted.Nodup := hperm.symm.nodup hADnodup
        have hdts : (sorted.map (fun d => d :: concepts.map (fun c => cellFor acc.1 c d))).map
            (fun r => r.headD JValue.null) = sorted := by
          rw [List.map_map]
          exact List.map_id sorted
        refine ⟨?_, ?_, ?_, ?_, rfl⟩
        · rw [hdts]
          have hcomb := hsorted.and hnodup
          refine hcomb.imp_of_mem ?_
          intro a b ha hb hab
          have hsa : a.isStr = true := hallstr a (hperm.mem_iff.mp ha)
          have hsb : b.isStr = true := hallstr b (hperm.mem_iff.mp hb)
          have hle : strOf a ≤ strOf b := (hr_iff a b).mp hab.1
          refine lt_of_le_of_ne hle ?_
          intro hcontra
          apply hab.2
          cases a with
          | str sa =>
            cases b with
            | str sb => simp only [strOf] at hcontra; rw [hcontra]
            | null => simp [JValue.isStr] at hsb
            | boolean x => simp [JValue.isStr] at hsb
            | num x => simp [JValue.isStr] at hsb
            | arr x => simp [JValue.isStr] at hsb
            | obj x => simp [JValue.isStr] at hsb
          | null => simp [JValue.isStr] at hsa
          | boolean x => simp [JValue.isStr] at hsa
          | num x => simp [JValue.isStr] at hsa
          | arr x => simp [JValue.isStr] at hsa
          | obj x => simp [JValue.isStr] at hsa
        · intro d
          rw [hdts, hperm.mem_iff, hmemAD d]
          constructor
          · rintro ⟨c, hc, hk⟩
            exact ⟨c, hc, (seriesGet_isSome_iff _ d).mpr hk⟩
          · rintro ⟨c, hc, hk⟩
            exact ⟨c, hc, (seriesGet_isSome_iff _ d).mp hk⟩
        · intro r hr
          obtain ⟨d, -, rfl⟩ := List.mem_map.mp hr
          simp
        · intro r hr j hj hnone
          obtain ⟨d, -, rfl⟩ := List.mem_map.mp hr
          simp only [List.headD_cons] at hnone ⊢
          rw [List.get?_cons_succ, List.get?_map,
            List.get?_eq_get hj]
          simp only [Option.map_some']
          congr 1
          unfold cellFor
          cases hl : csLookup acc.1 (concepts.get ⟨j, hj⟩) with
          | none => rfl
          | some s' =>
            have := pureCollect_csLookup gfs concepts ([], []) (concepts.get ⟨j, hj⟩) s'
              (by rw [← hacc_eq]; exact hl)
            rcases this with hin | ⟨hs', -⟩
            · simp [csLookup] at hin
            · simp only [hs', hnone]

/-- C7 witness: the concrete two-concept graph `gfsShape` produces a
statement with rows for 2022-12-31 (Liabilities cell empty) and 2023-12-31
in ascending date order, instantiating the shape theorem. -/
theorem generate_statement_shape_witness :
    generateStatement (.obj gfsShape) ["Assets", "Liabilities"] =
      .ok (some { header := ["Date", "Assets", "Liabilities"],
                  rows := [[.str "2022-12-31", .num 400, .str ""],
                           [.str "2023-12-31", .num 500, .num 200]] }) ∧
    ((({ header := ["Date", "Assets", "Liabilities"],
         rows := [[.str "2022-12-31", .num 400, .str ""],
                  [.str "2023-12-31", .num 500, .num 200]] } : Statement).rows.map
        (fun r => r.headD .null)).Pairwise (fun a b => strOf a < strOf b) ∧
      (∀ d, d ∈ ({ header := ["Date", "Assets", "Liabilities"],
                   rows := [[.str "2022-12-31", .num 400, .str ""],
                            [.str "2023-12-31", .num 500, .num 200]] } : Statement).rows.map
          (fun r => r.headD .null) ↔
        ∃ c ∈ ["Assets", "Liabilities"],
          (seriesGet (resolvedSeries gfsShape c) d).isSome = true) ∧
      (∀ r ∈ ({ header := ["Date", "Assets", "Liabilities"],
                rows := [[.str "2022-12-31", .num 400, .str ""],
                         [.str "2023-12-31", .num 500, .num 200]] } : Statement).rows,
        r.length = (["Assets", "Liabilities"] : List String).length + 1) ∧
      (∀ r ∈ ({ header := ["Date", "Assets", "Liabilities"],
                rows := [[.str "2022-12-31", .num 400, .str ""],
                         [.str "2023-12-31", .num 500, .num 200]] } : Statement).rows,
        ∀ j, (hj : j < (["Assets", "Liabilities"] : List String).length) →
          seriesGet (resolvedSeries gfsShape ((["Assets", "Liabilities"] : List String).get ⟨j, hj⟩))
              (r.headD .null) = none →
          r.get? (j + 1) = some (.str "")) ∧
      ({ header := ["Date", "Assets", "Liabilities"],
         rows := [[.str "2022-12-31", .num 400, .str ""],
                  [.str "2023-12-31", .num 500, .num 200]] } : Statement).header =
        "Date" :: ["Assets", "Liabilities"]) :=
  ⟨by decide,
   generate_statement_shape gfsShape ["Assets", "Liabilities"]
     { header := ["Date", "Assets", "Liabilities"],
       rows := [[.str "2022-12-31", .num 400, .str ""],
                [.str "2023-12-31", .num 500, .num 200]] }
     (by decide) (by decide)⟩

end SecFiling
